import Mathlib

/-
Verification of the task-storage service of the To-do-list repository.

The service lives in the Express backend (src/todo-frontend/src/ErrorBoundary.js,
server section): a CRUD resource over tasks with two storage backends, a durable
MongoDB store driven through Mongoose and an in-process fallback array, selected
per request by the current connectivity flag.  The fallback backend and the HTTP
handlers are embedded here directly from the source; the behaviour of the durable
store itself (MongoDB/Mongoose) is not part of the repository and is modelled
from the specification where a claim needs it, as marked on each such definition.
-/

namespace TodoApp

/-- Millisecond timestamps as produced by Date.now(); the clock never yields a
negative value, so timestamps are naturals. -/
abbrev Timestamp := Nat

/-- A task identifier.  The fallback backend builds the id string
String(Date.now()) + "-" + inMemoryIdCounter++; decimal digits contain no dash,
so that string is uniquely determined by, and determines, the pair
(now, counter).  The pair is used as the identifier here; the durable backend's
ObjectIds (modelled from the spec as fresh ids) are represented as pairs with
second component 0, while fallback counters start at 1. -/
abbrev TaskId := Nat × Nat

/-- A client-assigned board position: an opaque pair of numbers, stored
verbatim and never interpreted by the store. -/
abbrev Pos := Int × Int

/-- The value held in a stored task's dueDate slot.  dnull models JS null;
dvalid t models a value whose time value is the millisecond timestamp t;
dinvalid models a JS Invalid Date (or a raw unparseable value kept by the
fallback update merge), whose time value is NaN and which serializes to null. -/
inductive DueVal where
  | dnull
  | dvalid (t : Int)
  | dinvalid
deriving DecidableEq, Repr

/-- The dueDate field of a POST /tasks body, abstracted by how the source
expression `dueDate ? new Date(dueDate) : null` treats it: nofield for an
absent or falsy value, valid t for a truthy value parsing to time t, invalid
for a truthy value that does not parse. -/
inductive DueReq where
  | nofield
  | valid (t : Int)
  | invalid
deriving DecidableEq, Repr

/-- Models `dueDate ? new Date(dueDate) : null` from the POST /tasks handler. -/
def newDate : DueReq → DueVal
  | .nofield => .dnull
  | .valid t => .dvalid t
  | .invalid => .dinvalid

/-- A stored task record, with the fields the source writes. -/
structure Task where
  _id : TaskId
  text : String
  completed : Bool
  createdAt : Timestamp
  updatedAt : Timestamp
  dueDate : DueVal
  position : Option Pos
deriving DecidableEq, Repr

/-- The JSON shape of a task in a response.  JSON.stringify renders an Invalid
Date as null (Date.prototype.toJSON returns null for a NaN time value), so the
serialized dueDate is either a timestamp or null. -/
structure TaskJson where
  _id : TaskId
  text : String
  completed : Bool
  createdAt : Timestamp
  updatedAt : Timestamp
  dueDate : Option Int
  position : Option Pos
deriving DecidableEq, Repr

/-- JSON serialization of a stored dueDate: null and Invalid Date both render
as null. -/
def renderDue : DueVal → Option Int
  | .dnull => none
  | .dvalid t => some t
  | .dinvalid => none

/-- JSON serialization of a stored task. -/
def renderTask (t : Task) : TaskJson :=
  { _id := t._id
    text := t.text
    completed := t.completed
    createdAt := t.createdAt
    updatedAt := t.updatedAt
    dueDate := renderDue t.dueDate
    position := t.position }

/-- The mutable module state of the server: the connectivity flag consulted by
isDbConnected, the durable collection with a freshness counter for its ids
(modelled from the spec: ObjectIds are fresh), and the fallback array
inMemoryTasks with its id counter inMemoryIdCounter. -/
structure ServerState where
  dbConnected : Bool
  mongoTasks : List Task
  mongoCtr : Nat
  inMemoryTasks : List Task
  inMemoryIdCounter : Nat
deriving DecidableEq, Repr

/-- Models `mongoose.connection.readyState === 1`. -/
def isDbConnected (s : ServerState) : Bool := s.dbConnected

/-- The state at process start: not yet connected, empty fallback collection,
inMemoryIdCounter = 1. -/
def initialState : ServerState :=
  { dbConnected := false
    mongoTasks := []
    mongoCtr := 0
    inMemoryTasks := []
    inMemoryIdCounter := 1 }

/-- The collection the current request will operate on. -/
def activeTasks (s : ServerState) : List Task :=
  if s.dbConnected then s.mongoTasks else s.inMemoryTasks

/-- Every task held by either backend. -/
def allTasks (s : ServerState) : List Task :=
  s.mongoTasks ++ s.inMemoryTasks

/-- A character String.prototype.trim removes: JS trims WhiteSpace and
LineTerminator code points; the ASCII ones are modelled, which is what every
claim below exercises. -/
def jsSpace (c : Char) : Bool :=
  c == ' ' || c == '\t' || c == '\n' || c == '\r' || c == '\x0b' || c == '\x0c'

/-- Models String.prototype.trim: removes leading and trailing whitespace. -/
def jsTrim (s : String) : String :=
  String.mk (((s.data.dropWhile jsSpace).reverse.dropWhile jsSpace).reverse)

/-- Models the POST validation `!text || !String(text).trim()`: true exactly
when the text field is absent, empty, or whitespace-only. -/
def textRequiredFails : Option String → Bool
  | none => true
  | some s => jsTrim s == ""

/-- A JS number arising while evaluating the list comparator: a finite time
value, Infinity, -Infinity, or NaN. -/
inductive JsNum where
  | num (t : Int)
  | inf
  | ninf
  | nan
deriving DecidableEq, Repr

/-- Models `x.dueDate ? new Date(x.dueDate).getTime() : Infinity`: null is
falsy and yields Infinity, a Date object is truthy and yields its time value,
an Invalid Date is truthy and yields NaN. -/
def dueTime : DueVal → JsNum
  | .dnull => .inf
  | .dvalid t => .num t
  | .dinvalid => .nan

/-- JS subtraction on the comparator operands. -/
def jsSub : JsNum → JsNum → JsNum
  | .num a, .num b => .num (a - b)
  | .num _, .inf => .ninf
  | .num _, .ninf => .inf
  | .num _, .nan => .nan
  | .inf, .num _ => .inf
  | .inf, .inf => .nan
  | .inf, .ninf => .inf
  | .inf, .nan => .nan
  | .ninf, .num _ => .ninf
  | .ninf, .inf => .ninf
  | .ninf, .ninf => .nan
  | .ninf, .nan => .nan
  | .nan, _ => .nan

/-- The value the ES SortCompare step derives from the comparator's return:
a NaN return is replaced by +0, so only the sign of a finite value, the two
infinities, and NaN-as-zero matter. -/
def cmpValue : JsNum → Int
  | .num t => t
  | .inf => 1
  | .ninf => -1
  | .nan => 0

/-- The in-memory comparator of the GET /tasks handler: incomplete sorts
before completed, otherwise the difference of the due time values. -/
def sortCompare (a b : Task) : Int :=
  if a.completed != b.completed then (if a.completed then 1 else -1)
  else cmpValue (jsSub (dueTime a.dueDate) (dueTime b.dueDate))

/-- Whether a stable sort keeps a no later than b under sortCompare. -/
def taskLe (a b : Task) : Bool := decide (sortCompare a b ≤ 0)

/-- Stable insertion of x into a run sorted by taskLe: x is placed before the
first element it compares less-or-equal to. -/
def insertSorted (x : Task) : List Task → List Task
  | [] => [x]
  | y :: l => if taskLe x y then x :: y :: l else y :: insertSorted x l

/-- Models `[...inMemoryTasks].sort(comparator)`.  For a consistent comparator
(no stored Invalid Date) ECMAScript determines the result uniquely as the
stable sorted permutation, which this stable insertion sort computes; with an
inconsistent comparator the engine's order is implementation-defined and no
claim below depends on it. -/
def sortTasks : List Task → List Task
  | [] => []
  | x :: l => insertSorted x (sortTasks l)

/-- Modelled from the spec: the durable backend (MongoDB via Mongoose) is not
part of this repository.  Task.find().sort({completed: 1, dueDate: 1}) is
specified in §4.1 to return incomplete tasks before completed ones and then
ascending dueDate with absent dates last, the order sortTasks computes on a
collection free of invalid dates (the durable model never stores one). -/
def mongoFindSorted (ts : List Task) : List Task := sortTasks ts

/-- Modelled from the spec: Task.findById on the durable backend returns the
document with the requested id, if any. -/
def mongoFindById (id : TaskId) (ts : List Task) : Option Task :=
  ts.find? (fun t => t._id == id)

/-- Modelled from the spec: per §4.1 an unparseable dueDate is stored as
absent on the durable backend rather than raising a new error class. -/
def mongoCastDue : DueVal → DueVal
  | .dinvalid => .dnull
  | d => d

/-- A PUT /tasks/:id request body.  The handler spreads the whole body over
the stored record, so the model carries every schema field plus createdAt,
which the verbatim spread would also overwrite; the handler itself overwrites
any supplied updatedAt (payload.updatedAt = new Date()), so that field is not
modelled.  A present dueDate value is stored verbatim by the fallback merge
and is modelled by its observational class as a DueVal. -/
structure UpdateBody where
  text : Option String := none
  completed : Option Bool := none
  dueDate : Option DueVal := none
  position : Option (Option Pos) := none
  createdAt : Option Timestamp := none
  _id : Option TaskId := none
deriving DecidableEq, Repr

/-- Whether an update body supplies a text that is empty after trimming. -/
def textEmptySupplied (b : UpdateBody) : Bool :=
  match b.text with
  | some s => jsTrim s == ""
  | none => false

/-- The fallback merge inMemoryTasks[idx] = {...inMemoryTasks[idx], ...payload}
with payload.updatedAt = new Date() already applied. -/
def applyPayload (now : Timestamp) (b : UpdateBody) (t : Task) : Task :=
  { _id := b._id.getD t._id
    text := b.text.getD t.text
    completed := b.completed.getD t.completed
    createdAt := b.createdAt.getD t.createdAt
    updatedAt := now
    dueDate := b.dueDate.getD t.dueDate
    position := b.position.getD t.position }

/-- Modelled from the spec: the durable merge applied by findByIdAndUpdate;
the schema trims text on write, casts a supplied dueDate (unparseable becomes
absent), and _id is immutable on the durable store so a supplied _id is not
applied. -/
def mongoMerge (now : Timestamp) (b : UpdateBody) (t : Task) : Task :=
  { _id := t._id
    text := (b.text.map jsTrim).getD t.text
    completed := b.completed.getD t.completed
    createdAt := b.createdAt.getD t.createdAt
    updatedAt := now
    dueDate := (b.dueDate.map mongoCastDue).getD t.dueDate
    position := b.position.getD t.position }

/-- Result of the modelled findByIdAndUpdate. -/
inductive MongoUpdRes where
  | updated (t : Task) (ts : List Task)
  | missing
  | invalidText (m : String)
deriving DecidableEq, Repr

/-- Modelled from the spec: Task.findByIdAndUpdate with runValidators, which
rejects a supplied text that is empty after trimming, returns the post-merge
document, and null when no document has the id. -/
def mongoFindByIdAndUpdate (now : Timestamp) (id : TaskId) (b : UpdateBody)
    (ts : List Task) : MongoUpdRes :=
  let idx := ts.findIdx (fun t => t._id == id)
  if h : idx < ts.length then
    if textEmptySupplied b then .invalidText "ValidationError: text required"
    else
      let merged := mongoMerge now b (ts.get ⟨idx, h⟩)
      .updated merged (ts.set idx merged)
  else .missing

/-- Modelled from the spec: Task.findByIdAndDelete removes the matched
document, returning null when no document has the id. -/
def mongoFindByIdAndDelete (id : TaskId) (ts : List Task) : Option (List Task) :=
  let idx := ts.findIdx (fun t => t._id == id)
  if idx < ts.length then some (ts.eraseIdx idx) else none

/-- A response of the HTTP layer, by status and JSON payload: okList, okTask,
okMsg are 200, created is 201, badRequest is 400, notFound is 404. -/
inductive Resp where
  | okList (ts : List TaskJson)
  | okTask (t : TaskJson)
  | created (t : TaskJson)
  | okMsg (m : String)
  | badRequest (m : String)
  | notFound (m : String)
deriving DecidableEq, Repr

/-- The GET /tasks handler: sorts a copy of the active collection and returns
it; the stored state is untouched. -/
def getTasks (s : ServerState) : Resp × ServerState :=
  if isDbConnected s then
    (.okList ((mongoFindSorted s.mongoTasks).map renderTask), s)
  else
    (.okList ((sortTasks s.inMemoryTasks).map renderTask), s)

/-- The GET /tasks/:id handler. -/
def getTaskById (id : TaskId) (s : ServerState) : Resp × ServerState :=
  if isDbConnected s then
    match mongoFindById id s.mongoTasks with
    | none => (.notFound "Task not found", s)
    | some t => (.okTask (renderTask t), s)
  else
    match s.inMemoryTasks.find? (fun t => t._id == id) with
    | none => (.notFound "Task not found", s)
    | some t => (.okTask (renderTask t), s)

/-- The POST /tasks body: text, dueDate, position as destructured by the
handler. -/
structure CreateBody where
  text : Option String := none
  dueDate : DueReq := .nofield
  position : Option Pos := none
deriving DecidableEq, Repr

/-- The record the POST handler builds on the durable branch: the Task
constructor with schema defaults completed = false and createdAt = now, the
pre-save hook setting updatedAt, trimmed text, dueDate from
`dueDate ? new Date(dueDate) : null` under the durable cast, position stored
verbatim, and a fresh id (modelled from the spec: ObjectIds are fresh). -/
def mongoNewTask (now : Timestamp) (body : CreateBody) (s : ServerState) : Task :=
  { _id := (s.mongoCtr, 0)
    text := jsTrim (body.text.getD "")
    completed := false
    createdAt := now
    updatedAt := now
    dueDate := mongoCastDue (newDate body.dueDate)
    position := body.position }

/-- The record the POST handler builds on the fallback branch, with
_id = String(Date.now()) + "-" + inMemoryIdCounter++. -/
def fbNewTask (now : Timestamp) (body : CreateBody) (s : ServerState) : Task :=
  { _id := (now, s.inMemoryIdCounter)
    text := jsTrim (body.text.getD "")
    completed := false
    createdAt := now
    updatedAt := now
    dueDate := newDate body.dueDate
    position := body.position }

/-- The POST /tasks handler: validates text, then inserts one record into the
active backend and returns it with status 201. -/
def postTasks (now : Timestamp) (body : CreateBody) (s : ServerState) :
    Resp × ServerState :=
  if textRequiredFails body.text then
    (.badRequest "Task text is required.", s)
  else if isDbConnected s then
    (.created (renderTask (mongoNewTask now body s)),
      { s with mongoTasks := s.mongoTasks ++ [mongoNewTask now body s],
               mongoCtr := s.mongoCtr + 1 })
  else
    (.created (renderTask (fbNewTask now body s)),
      { s with inMemoryTasks := s.inMemoryTasks ++ [fbNewTask now body s],
               inMemoryIdCounter := s.inMemoryIdCounter + 1 })

/-- The PUT /tasks/:id handler: builds payload = {...req.body} with
payload.updatedAt = new Date(), then updates the active backend; the fallback
path merges the payload verbatim over the record at findIndex with no
validation. -/
def putTaskById (now : Timestamp) (id : TaskId) (body : UpdateBody)
    (s : ServerState) : Resp × ServerState :=
  if isDbConnected s then
    match mongoFindByIdAndUpdate now id body s.mongoTasks with
    | .updated t ts => (.okTask (renderTask t), { s with mongoTasks := ts })
    | .missing => (.notFound "Task not found", s)
    | .invalidText m => (.badRequest m, s)
  else
    let idx := s.inMemoryTasks.findIdx (fun t => t._id == id)
    if h : idx < s.inMemoryTasks.length then
      let merged := applyPayload now body (s.inMemoryTasks.get ⟨idx, h⟩)
      (.okTask (renderTask merged),
        { s with inMemoryTasks := s.inMemoryTasks.set idx merged })
    else (.notFound "Task not found", s)

/-- The DELETE /tasks/:id handler: removes the matched record from the active
backend via findIndex and splice(idx, 1). -/
def deleteTaskById (id : TaskId) (s : ServerState) : Resp × ServerState :=
  if isDbConnected s then
    match mongoFindByIdAndDelete id s.mongoTasks with
    | none => (.notFound "Task not found", s)
    | some ts => (.okMsg "Task deleted successfully", { s with mongoTasks := ts })
  else
    let idx := s.inMemoryTasks.findIdx (fun t => t._id == id)
    if idx < s.inMemoryTasks.length then
      (.okMsg "Task deleted successfully",
        { s with inMemoryTasks := s.inMemoryTasks.eraseIdx idx })
    else (.notFound "Task not found", s)

/-- maxRetries from connectToMongo. -/
def maxRetries : Nat := 3

/-- baseDelay from connectToMongo: one second in milliseconds. -/
def baseDelay : Nat := 1000

/-- The per-attempt connection-establishment cap passed to mongoose.connect. -/
def serverSelectionTimeoutMS : Nat := 5000

/-- The body of connectToMongo's while loop: attempt holds the loop variable
before the iteration's increment, outcome k tells whether the k-th
mongoose.connect call succeeds, and the result collects the number of connect
calls made, the backoff delays slept between them, and whether a connection
was established.  The loop increments attempt exactly once per iteration and
runs only while attempt is at most maxRetries, so maxRetries + 1 iterations of
fuel make the recursion structural without changing its value. -/
def connectLoop (outcome : Nat → Bool) : Nat → Nat → Nat × List Nat × Bool
  | 0, _ => (0, [], false)
  | fuel + 1, attempt =>
    if attempt ≤ maxRetries then
      let a := attempt + 1
      if outcome a then (1, [], true)
      else if a > maxRetries then (1, [], false)
      else
        let d := baseDelay * 2 ^ (a - 1)
        let rest := connectLoop outcome fuel a
        (rest.1 + 1, d :: rest.2.1, rest.2.2)
    else (0, [], false)

/-- The startup connectivity routine connectToMongo, as a function of which
connect calls would succeed: returns how many connect calls are made, the
delays slept between them, and whether the process ends up connected; in
every case it returns instead of terminating the process. -/
def connectToMongo (outcome : Nat → Bool) : Nat × List Nat × Bool :=
  connectLoop outcome (maxRetries + 1) 0

/-- The spec-side sort key of §4.1: a task with no usable due date sorts
last, as if its due date were plus infinity. -/
def dueKeySpec (t : Task) : WithTop Int :=
  match t.dueDate with
  | .dvalid v => (v : WithTop Int)
  | _ => ⊤

/-- The order §4.1 specifies for list(): incomplete strictly before
completed, and within a completeness group ascending by due date with absent
dates last. -/
def SpecOrder (a b : Task) : Prop :=
  (a.completed = false ∧ b.completed = true) ∨
  (a.completed = b.completed ∧ dueKeySpec a ≤ dueKeySpec b)

instance specOrderDecidable (a b : Task) : Decidable (SpecOrder a b) := by
  unfold SpecOrder
  exact inferInstance

/-- Whether a collection stores no invalid date, which is exactly when the
list comparator is consistent in the ECMAScript sense and the data-model type
of dueDate (optional timestamp) is respected. -/
def datesOk (ts : List Task) : Bool := ts.all (fun t => t.dueDate != DueVal.dinvalid)

/-- One client-visible operation against the running server; opSetConnected
models the connectivity flag changing between requests as the driver connects
or disconnects. -/
inductive Op where
  | opPost (now : Timestamp) (body : CreateBody)
  | opPut (now : Timestamp) (id : TaskId) (body : UpdateBody)
  | opDelete (id : TaskId)
  | opGetAll
  | opGetOne (id : TaskId)
  | opSetConnected (b : Bool)
deriving DecidableEq, Repr

/-- The state transition an operation performs. -/
def applyOp (s : ServerState) : Op → ServerState
  | .opPost now body => (postTasks now body s).2
  | .opPut now id body => (putTaskById now id body s).2
  | .opDelete id => (deleteTaskById id s).2
  | .opGetAll => (getTasks s).2
  | .opGetOne id => (getTaskById id s).2
  | .opSetConnected b => { s with dbConnected := b }

/-- Runs a sequence of operations from a state. -/
def runOps (s : ServerState) (ops : List Op) : ServerState :=
  ops.foldl applyOp s

/-- Whether an update body confines itself to the mutable fields of §4.1
(text, completed, dueDate, position). -/
def mutableOnly (b : UpdateBody) : Bool :=
  b.createdAt == none && b._id == none

/-- Whether an operation's update body, if it has one, is confined to the
mutable fields. -/
def benignOp : Op → Bool
  | .opPut _ _ b => mutableOnly b
  | _ => true

/-- The timestamp an operation reads from the clock, if it reads one. -/
def opNow : Op → Option Timestamp
  | .opPost now _ => some now
  | .opPut now _ _ => some now
  | _ => none

/-- Whether the clock readings along a sequence of operations are
non-decreasing, starting from lower bound n. -/
def nowsLB (n : Timestamp) : List Op → Bool
  | [] => true
  | op :: rest =>
    match opNow op with
    | none => nowsLB n rest
    | some m => decide (n ≤ m) && nowsLB m rest

/-- The last clock reading of a sequence of operations, or the initial bound
when there is none. -/
def lastNow (n : Timestamp) (ops : List Op) : Timestamp :=
  ops.foldl (fun acc op => (opNow op).getD acc) n

/-- The identifiers of a collection, in storage order. -/
def idsOf (l : List Task) : List TaskId := l.map (fun t => t._id)

/-- Identifier bookkeeping maintained by every handler whose update bodies
stay within the mutable fields: fallback ids carry counters in
[1, inMemoryIdCounter), durable ids are pairs (k, 0) with k below the
freshness counter, and all stored ids are pairwise distinct. -/
structure InvIds (s : ServerState) : Prop where
  fbLo : ∀ i ∈ idsOf s.inMemoryTasks, 1 ≤ i.2 ∧ i.2 < s.inMemoryIdCounter
  fbOne : 1 ≤ s.inMemoryIdCounter
  mgZero : ∀ i ∈ idsOf s.mongoTasks, i.2 = 0 ∧ i.1 < s.mongoCtr
  uniq : (idsOf (allTasks s)).Pairwise (· ≠ ·)

/-- Every stored record satisfies createdAt ≤ updatedAt, and no stored
updatedAt exceeds the clock bound n. -/
def StampOk (s : ServerState) (n : Timestamp) : Prop :=
  ∀ t ∈ allTasks s, t.createdAt ≤ t.updatedAt ∧ t.updatedAt ≤ n

/-- Every task currently stored under id i has creation time c. -/
def IdCreatedAt (s : ServerState) (i : TaskId) (c : Timestamp) : Prop :=
  ∀ u ∈ allTasks s, u._id = i → u.createdAt = c

/-- The id i can never again be assigned to a newly created task: its counter
component lies below the corresponding freshness counter. -/
def IdStale (s : ServerState) (i : TaskId) : Prop :=
  (1 ≤ i.2 → i.2 < s.inMemoryIdCounter) ∧ (i.2 = 0 → i.1 < s.mongoCtr)

/-- The stored task used to exercise the fallback update validation gap. -/
def c5Task : Task :=
  { _id := (0, 1), text := "a", completed := false, createdAt := 0,
    updatedAt := 0, dueDate := .dnull, position := none }

/-- A fallback-mode state holding exactly c5Task. -/
def c5State : ServerState :=
  { dbConnected := false, mongoTasks := [], mongoCtr := 0,
    inMemoryTasks := [c5Task], inMemoryIdCounter := 2 }

/-- A three-task fallback collection with mixed completeness and due dates,
for exercising the list order. -/
def c1State : ServerState :=
  { dbConnected := false, mongoTasks := [], mongoCtr := 0,
    inMemoryTasks :=
      [{ _id := (0, 1), text := "a", completed := true, createdAt := 0,
         updatedAt := 0, dueDate := .dvalid 5, position := none },
       { _id := (0, 2), text := "b", completed := false, createdAt := 0,
         updatedAt := 0, dueDate := .dnull, position := none },
       { _id := (0, 3), text := "c", completed := false, createdAt := 0,
         updatedAt := 0, dueDate := .dvalid 9, position := none }],
    inMemoryIdCounter := 4 }

/-- The run that creates a task with an unparseable dueDate and then a task
due at 5, both on the fallback backend. -/
def c1BadOps : List Op :=
  [.opPost 1 { text := some "a", dueDate := .invalid },
   .opPost 2 { text := some "b", dueDate := .valid 5 }]

/-- The store state that run reaches: it holds a task whose stored dueDate is
a JS Invalid Date (serialized as null) ahead of a task due at 5. -/
def c1BadState : ServerState := runOps initialState c1BadOps

/-- A sample operation sequence creating tasks on both backends, with a
deletion between creates to exercise id freshness across removal. -/
def c8Ops : List Op :=
  [.opPost 1 { text := some "a" }, .opDelete (1, 1),
   .opPost 2 { text := some "b" },
   .opSetConnected true, .opPost 4 { text := some "c" }]

/-- The id of each task a run creates, in creation order: the _id of every
201 response a POST produces along the sequence. -/
def createdIds (s : ServerState) : List Op → List TaskId
  | [] => []
  | op :: rest =>
    (match op with
     | .opPost now body =>
       match (postTasks now body s).1 with
       | .created tj => [tj._id]
       | _ => []
     | _ => []) ++ createdIds (applyOp s op) rest

/-- A sample prefix creating one fallback task. -/
def c6Ops1 : List Op := [.opPost 1 { text := some "a" }]

/-- A sample suffix updating that task and creating another. -/
def c6Ops2 : List Op :=
  [.opPut 2 (1, 1) { completed := some true }, .opPost 3 { text := some "b" }]

/-- Claim C3: when every connection attempt fails, the startup routine makes
4 mongoose.connect calls, not the 3 the claim and the repository README state,
sleeping 1s, 2s and 4s between them, each call capped by
serverSelectionTimeoutMS = 5000 ms; it then returns, so the process keeps
serving requests in fallback mode instead of terminating. -/
theorem C3_retry_eval :
    connectToMongo (fun _ => false) = (4, [1000, 2000, 4000], false) ∧
    serverSelectionTimeoutMS = 5000 ∧ maxRetries = 3 :=
  ⟨by decide, rfl, rfl⟩

/-- Claim C4 (amended): a create whose text is absent, empty, or
whitespace-only fails on both backends with the validation error
(HTTP 400, message "Task text is required.") and no record is inserted into
either backend: the whole server state is returned unchanged. -/
theorem C4_create_validation (now : Timestamp) (body : CreateBody)
    (s : ServerState) (h : textRequiredFails body.text = true) :
    postTasks now body s = (.badRequest "Task text is required.", s) := by
  simp [postTasks, h]

/-- Claim C4 witness: the whitespace-only text "   " is rejected with the
validation message and an unchanged state. -/
theorem C4_create_validation_witness :
    textRequiredFails (some "   ") = true ∧
    postTasks 3 { text := some "   " } initialState =
      (.badRequest "Task text is required.", initialState) :=
  ⟨by decide, C4_create_validation 3 { text := some "   " } initialState (by decide)⟩

/-- Claim C4 counterexample: at the empty text the call fails as claimed, but
the response message is "Task text is required.", not the "text required" the
claim states. -/
theorem C4_message_counterexample :
    postTasks 0 { text := some "" } initialState =
      (.badRequest "Task text is required.", initialState) ∧
    "Task text is required." ≠ "text required" :=
  ⟨by decide, by decide⟩

/-- Claim C5: the fallback update path has no text validation: updating the
stored task with text "   ", which is empty after trimming, succeeds with 200
instead of failing with a validation error, and stores the whitespace-only
text verbatim. -/
theorem C5_fallback_update_eval :
    (putTaskById 5 (0, 1) { text := some "   " } c5State).1 =
      .okTask (renderTask { c5Task with text := "   ", updatedAt := 5 }) ∧
    (putTaskById 5 (0, 1) { text := some "   " } c5State).2.inMemoryTasks =
      [{ c5Task with text := "   ", updatedAt := 5 }] ∧
    jsTrim "   " = "" :=
  ⟨by decide, by decide, by decide⟩

/-- Claim C2: a create whose dueDate is present but unparseable still
succeeds on either backend, appends exactly one record to the active
collection, and that record is returned and stored with a serialized dueDate
of null, never an invalid or wrong-looking date value. -/
theorem C2_invalid_due_null (now : Timestamp) (body : CreateBody)
    (s : ServerState) (hdue : body.dueDate = .invalid)
    (htext : textRequiredFails body.text = false) :
    ∃ newT s2, postTasks now body s = (.created (renderTask newT), s2) ∧
      (renderTask newT).dueDate = none ∧
      activeTasks s2 = activeTasks s ++ [newT] := by
  by_cases hdb : s.dbConnected
  · refine ⟨mongoNewTask now body s,
      { s with mongoTasks := s.mongoTasks ++ [mongoNewTask now body s],
               mongoCtr := s.mongoCtr + 1 }, ?_, ?_, ?_⟩
    · simp [postTasks, htext, isDbConnected, hdb]
    · simp [renderTask, renderDue, hdue, newDate, mongoCastDue, mongoNewTask]
    · simp [activeTasks, hdb]
  · refine ⟨fbNewTask now body s,
      { s with inMemoryTasks := s.inMemoryTasks ++ [fbNewTask now body s],
               inMemoryIdCounter := s.inMemoryIdCounter + 1 }, ?_, ?_, ?_⟩
    · simp [postTasks, htext, isDbConnected, hdb]
    · simp [renderTask, renderDue, hdue, newDate, fbNewTask]
    · simp [activeTasks, hdb]

/-- Claim C2 witness: creating with text "x" and an unparseable dueDate in
the initial fallback state. -/
theorem C2_invalid_due_null_witness :
    ∃ newT s2,
      postTasks 7 { text := some "x", dueDate := .invalid } initialState =
        (.created (renderTask newT), s2) ∧
      (renderTask newT).dueDate = none ∧
      activeTasks s2 = activeTasks initialState ++ [newT] :=
  C2_invalid_due_null 7 { text := some "x", dueDate := .invalid } initialState
    rfl (by decide)

/-- Claim C7: updating an id absent from the active backend fails with
404 Task not found and leaves the whole server state, hence both stored
collections, exactly as they were. -/
theorem C7_update_missing (now : Timestamp) (id : TaskId) (body : UpdateBody)
    (s : ServerState) (h : ∀ t ∈ activeTasks s, t._id ≠ id) :
    putTaskById now id body s = (.notFound "Task not found", s) := by
  by_cases hdb : s.dbConnected
  · have hidx : s.mongoTasks.findIdx (fun t => t._id == id) = s.mongoTasks.length := by
      refine List.findIdx_eq_length.mpr ?_
      intro x hx
      have := h x (by simpa [activeTasks, hdb] using hx)
      simpa using this
    simp [putTaskById, isDbConnected, hdb, mongoFindByIdAndUpdate, hidx]
  · have hidx : s.inMemoryTasks.findIdx (fun t => t._id == id) = s.inMemoryTasks.length := by
      refine List.findIdx_eq_length.mpr ?_
      intro x hx
      have := h x (by simpa [activeTasks, hdb] using hx)
      simpa using this
    simp [putTaskById, isDbConnected, hdb, hidx]

/-- Claim C7 witness: updating id (9, 9), absent from the one-task fallback
state, returns 404 and the untouched state. -/
theorem C7_update_missing_witness :
    (∀ t ∈ activeTasks c5State, t._id ≠ (9, 9)) ∧
    putTaskById 4 (9, 9) { completed := some true } c5State =
      (.notFound "Task not found", c5State) :=
  ⟨by decide, C7_update_missing 4 (9, 9) { completed := some true } c5State (by decide)⟩

theorem insertSorted_perm (x : Task) (l : List Task) :
    (insertSorted x l).Perm (x :: l) := by
  induction l with
  | nil => exact List.Perm.refl _
  | cons y l ih =>
    by_cases h : taskLe x y = true
    · simp [insertSorted, h]
    · simp only [insertSorted, h, if_neg, Bool.not_eq_true]
      exact (ih.cons y).trans (List.Perm.swap x y l)

theorem sortTasks_perm (l : List Task) : (sortTasks l).Perm l := by
  induction l with
  | nil => exact List.Perm.refl _
  | cons x l ih => exact (insertSorted_perm x (sortTasks l)).trans (ih.cons x)

theorem sortCompare_neg (a b : Task) : sortCompare b a = -sortCompare a b := by
  rcases a with ⟨ia, ta, ca, c1, u1, da, pa⟩
  rcases b with ⟨ib, tb, cb, c2, u2, db, pb⟩
  cases ca <;> cases cb <;> cases da <;> cases db <;>
      simp [sortCompare, dueTime, jsSub, cmpValue]

theorem taskLe_total (a b : Task) : taskLe a b = true ∨ taskLe b a = true := by
  simp only [taskLe, decide_eq_true_eq, sortCompare_neg a b]
  omega

theorem taskLe_iff_specOrder (a b : Task) (ha : a.dueDate ≠ DueVal.dinvalid)
    (hb : b.dueDate ≠ DueVal.dinvalid) : taskLe a b = true ↔ SpecOrder a b := by
  rcases a with ⟨ia, ta, ca, c1, u1, da, pa⟩
  rcases b with ⟨ib, tb, cb, c2, u2, db, pb⟩
  cases ca <;> cases cb <;> cases da <;> cases db <;>
      simp_all [taskLe, sortCompare, dueTime, jsSub, cmpValue, SpecOrder,
        dueKeySpec, WithTop.coe_le_coe, top_le_iff]

theorem specOrder_trans {a b c : Task} (h1 : SpecOrder a b)
    (h2 : SpecOrder b c) : SpecOrder a c := by
  rcases h1 with ⟨h1a, h1b⟩ | ⟨h1a, h1b⟩ <;> rcases h2 with ⟨h2a, h2b⟩ | ⟨h2a, h2b⟩
  · rw [h1b] at h2a; cases h2a
  · exact Or.inl ⟨h1a, h2a ▸ h1b⟩
  · exact Or.inl ⟨h1a ▸ h2a, h2b⟩
  · exact Or.inr ⟨h1a.trans h2a, h1b.trans h2b⟩

theorem pairwise_insertSorted (x : Task) (l : List Task)
    (hx : x.dueDate ≠ DueVal.dinvalid)
    (hl : ∀ t ∈ l, t.dueDate ≠ DueVal.dinvalid)
    (h : l.Pairwise SpecOrder) : (insertSorted x l).Pairwise SpecOrder := by
  induction l with
  | nil => simp [insertSorted]
  | cons y l ih =>
    have hy : y.dueDate ≠ DueVal.dinvalid := hl y (List.mem_cons_self y l)
    have hl2 : ∀ t ∈ l, t.dueDate ≠ DueVal.dinvalid :=
      fun t ht => hl t (List.mem_cons_of_mem y ht)
    rcases List.pairwise_cons.mp h with ⟨hy_all, hl_pw⟩
    by_cases hle : taskLe x y = true
    · have hxy : SpecOrder x y := (taskLe_iff_specOrder x y hx hy).mp hle
      simp only [insertSorted, hle, if_pos]
      refine List.pairwise_cons.mpr ⟨?_, h⟩
      intro b hb
      rcases List.mem_cons.mp hb with rfl | hb
      · exact hxy
      · exact specOrder_trans hxy (hy_all b hb)
    · have hyx : SpecOrder y x := by
        rcases taskLe_total x y with ht | ht
        · exact absurd ht hle
        · exact (taskLe_iff_specOrder y x hy hx).mp ht
      simp only [insertSorted, hle, if_neg, Bool.not_eq_true]
      refine List.pairwise_cons.mpr ⟨?_, ih hl2 hl_pw⟩
      intro b hb
      rcases List.mem_cons.mp ((insertSorted_perm x l).mem_iff.mp hb) with rfl | hb
      · exact hyx
      · exact hy_all b hb

theorem pairwise_sortTasks (l : List Task)
    (hl : ∀ t ∈ l, t.dueDate ≠ DueVal.dinvalid) :
    (sortTasks l).Pairwise SpecOrder := by
  induction l with
  | nil => simp [sortTasks]
  | cons x l ih =>
    have hl2 : ∀ t ∈ l, t.dueDate ≠ DueVal.dinvalid :=
      fun t ht => hl t (List.mem_cons_of_mem x ht)
    refine pairwise_insertSorted x (sortTasks l) (hl x (List.mem_cons_self x l))
      ?_ (ih hl2)
    intro t ht
    exact hl2 t ((sortTasks_perm l).mem_iff.mp ht)

/-- Claim C1 (amended): for every server state whose stored due dates are of
the data-model type, a timestamp or absent, with no JS Invalid Date kept by
an unparseable input, and for either backend, GET /tasks returns exactly the
stored tasks of the active collection, reordered so that incomplete tasks
precede completed ones and each completeness group ascends by due date with
absent dates last; the durable branch's sort is modelled from the spec.  The
restriction is forced: an Invalid Date is reachable through create and makes
the comparator return NaN, which SortCompare treats as 0, so the claimed
order fails there, as the counterexample below shows. -/
theorem C1_list_sorted (s : ServerState) (h : datesOk (activeTasks s) = true) :
    ∃ out : List Task, getTasks s = (.okList (out.map renderTask), s) ∧
      out.Perm (activeTasks s) ∧ out.Pairwise SpecOrder := by
  have hgood : ∀ t ∈ activeTasks s, t.dueDate ≠ DueVal.dinvalid := by
    intro t ht
    have := List.all_eq_true.mp h t ht
    simpa using this
  by_cases hdb : s.dbConnected
  · have hact : activeTasks s = s.mongoTasks := by simp [activeTasks, hdb]
    rw [hact] at hgood
    exact ⟨sortTasks s.mongoTasks,
      by simp [getTasks, isDbConnected, hdb, mongoFindSorted],
      hact ▸ sortTasks_perm s.mongoTasks, pairwise_sortTasks _ hgood⟩
  · have hact : activeTasks s = s.inMemoryTasks := by simp [activeTasks, hdb]
    rw [hact] at hgood
    exact ⟨sortTasks s.inMemoryTasks,
      by simp [getTasks, isDbConnected, hdb],
      hact ▸ sortTasks_perm s.inMemoryTasks, pairwise_sortTasks _ hgood⟩

/-- Claim C1 witness: the mixed three-task state is listed in the specified
order. -/
theorem C1_list_sorted_witness :
    datesOk (activeTasks c1State) = true ∧
    ∃ out : List Task, getTasks c1State = (.okList (out.map renderTask), c1State) ∧
      out.Perm (activeTasks c1State) ∧ out.Pairwise SpecOrder :=
  ⟨by decide, C1_list_sorted c1State (by decide)⟩

/-- Claim C1 counterexample: the state reached by creating a task with an
unparseable dueDate and then one due at 5 is a real store state, yet list()
returns the task with no serialized due date first, not last: its stored
Invalid Date makes the comparator return NaN, which SortCompare maps to 0,
so the claimed order is violated on this reachable state; the pair of stored
tasks the sort emits is not in the specified order. -/
theorem C1_list_order_counterexample :
    c1BadState = runOps initialState c1BadOps ∧
    (∃ out, (getTasks c1BadState).1 = .okList out ∧
      out.map (fun tj => tj.dueDate) = [none, some 5]) ∧
    ∃ a b, sortTasks c1BadState.inMemoryTasks = [a, b] ∧ ¬ SpecOrder a b :=
  ⟨rfl,
   ⟨(sortTasks c1BadState.inMemoryTasks).map renderTask, by decide, by decide⟩,
   ⟨{ _id := (1, 1), text := "a", completed := false, createdAt := 1,
      updatedAt := 1, dueDate := .dinvalid, position := none },
    { _id := (2, 2), text := "b", completed := false, createdAt := 2,
      updatedAt := 2, dueDate := .dvalid 5, position := none },
    by decide, by decide⟩⟩

theorem findIdx_decomp {α : Type} (p : α → Bool) (l : List α)
    (h : l.findIdx p < l.length) :
    ∃ pre x post, l = pre ++ x :: post ∧ pre.length = l.findIdx p ∧
      p x = true ∧ ∀ y ∈ pre, p y = false := by
  induction l with
  | nil => simp at h
  | cons a l ih =>
    by_cases ha : p a = true
    · exact ⟨[], a, l, rfl, by simp [List.findIdx_cons, ha], ha, by simp⟩
    · have ha2 : p a = false := by simpa using ha
      have h2 : l.findIdx p < l.length := by
        simp only [List.findIdx_cons, ha2, cond_false, List.length_cons] at h
        omega
      obtain ⟨pre, x, post, heq, hlen, hx, hpre⟩ := ih h2
      refine ⟨a :: pre, x, post, by simp [heq], ?_, hx, ?_⟩
      · simp [List.findIdx_cons, ha2, hlen]
      · intro y hy
        rcases List.mem_cons.mp hy with rfl | hy
        · exact ha2
        · exact hpre y hy

theorem eraseIdx_append_cons {α : Type} (pre post : List α) (x : α) :
    (pre ++ x :: post).eraseIdx pre.length = pre ++ post := by
  induction pre with
  | nil => simp
  | cons a l ih => simp [ih]

theorem set_append_cons {α : Type} (pre post : List α) (x v : α) :
    (pre ++ x :: post).set pre.length v = pre ++ v :: post := by
  induction pre with
  | nil => simp
  | cons a l ih => simp [ih]

theorem get_append_cons {α : Type} (pre post : List α) (x : α)
    (h : pre.length < (pre ++ x :: post).length) :
    (pre ++ x :: post).get ⟨pre.length, h⟩ = x := by
  induction pre with
  | nil => rfl
  | cons a l ih => simpa using ih (by simp)

theorem deleteTaskById_fb (s : ServerState) (id : TaskId)
    (hdb : s.dbConnected = false)
    (hmem : ∃ t ∈ s.inMemoryTasks, t._id = id) :
    ∃ pre t post, s.inMemoryTasks = pre ++ t :: post ∧ t._id = id ∧
      (∀ u ∈ pre, u._id ≠ id) ∧
      deleteTaskById id s = (.okMsg "Task deleted successfully",
        { s with inMemoryTasks := pre ++ post }) := by
  have hlt : s.inMemoryTasks.findIdx (fun t => t._id == id) <
      s.inMemoryTasks.length := by
    refine List.findIdx_lt_length.mpr ?_
    obtain ⟨t, ht, hid⟩ := hmem
    exact ⟨t, ht, by simp [hid]⟩
  obtain ⟨pre, t, post, heq, hlen, hx, hpre⟩ := findIdx_decomp _ _ hlt
  have herase : s.inMemoryTasks.eraseIdx
      (s.inMemoryTasks.findIdx (fun t => t._id == id)) = pre ++ post := by
    rw [← hlen, heq]
    exact eraseIdx_append_cons pre post t
  refine ⟨pre, t, post, heq, by simpa using hx, ?_, ?_⟩
  · intro u hu
    simpa using hpre u hu
  · simp [deleteTaskById, isDbConnected, hdb, hlt, herase]

theorem deleteTaskById_mg (s : ServerState) (id : TaskId)
    (hdb : s.dbConnected = true)
    (hmem : ∃ t ∈ s.mongoTasks, t._id = id) :
    ∃ pre t post, s.mongoTasks = pre ++ t :: post ∧ t._id = id ∧
      (∀ u ∈ pre, u._id ≠ id) ∧
      deleteTaskById id s = (.okMsg "Task deleted successfully",
        { s with mongoTasks := pre ++ post }) := by
  have hlt : s.mongoTasks.findIdx (fun t => t._id == id) <
      s.mongoTasks.length := by
    refine List.findIdx_lt_length.mpr ?_
    obtain ⟨t, ht, hid⟩ := hmem
    exact ⟨t, ht, by simp [hid]⟩
  obtain ⟨pre, t, post, heq, hlen, hx, hpre⟩ := findIdx_decomp _ _ hlt
  have herase : s.mongoTasks.eraseIdx
      (s.mongoTasks.findIdx (fun t => t._id == id)) = pre ++ post := by
    rw [← hlen, heq]
    exact eraseIdx_append_cons pre post t
  refine ⟨pre, t, post, heq, by simpa using hx, ?_, ?_⟩
  · intro u hu
    simpa using hpre u hu
  · simp [deleteTaskById, isDbConnected, hdb, mongoFindByIdAndDelete, hlt, herase]

/-- Claim C10: GET /tasks is read-only: it returns the whole server state
unchanged, because the handler sorts a copy of the collection; and in
fallback mode DELETE removes exactly the first record matching the id, the
collection splitting as pre ++ t :: post with the new collection pre ++ post,
so every other stored task, and the durable collection, is untouched. -/
theorem C10_frame :
    (∀ s : ServerState, (getTasks s).2 = s) ∧
    (∀ (s : ServerState) (id : TaskId), s.dbConnected = false →
      (∃ t ∈ s.inMemoryTasks, t._id = id) →
      ∃ pre t post, s.inMemoryTasks = pre ++ t :: post ∧ t._id = id ∧
        (∀ u ∈ pre, u._id ≠ id) ∧
        deleteTaskById id s = (.okMsg "Task deleted successfully",
          { s with inMemoryTasks := pre ++ post })) := by
  constructor
  · intro s
    by_cases hdb : s.dbConnected <;> simp [getTasks, isDbConnected, hdb]
  · intro s id hdb hmem
    exact deleteTaskById_fb s id hdb hmem

/-- Claim C10 witness: listing the three-task state changes nothing, and
deleting the stored id from the one-task state splices it out. -/
theorem C10_frame_witness :
    (getTasks c1State).2 = c1State ∧
    (∃ t ∈ c5State.inMemoryTasks, t._id = (0, 1)) ∧
    ∃ pre t post, c5State.inMemoryTasks = pre ++ t :: post ∧ t._id = (0, 1) ∧
      (∀ u ∈ pre, u._id ≠ (0, 1)) ∧
      deleteTaskById (0, 1) c5State = (.okMsg "Task deleted successfully",
        { c5State with inMemoryTasks := pre ++ post }) :=
  ⟨C10_frame.1 c1State, by decide, C10_frame.2 c5State (0, 1) rfl (by decide)⟩

/-- Claim C9: in any state whose active collection has pairwise-distinct ids,
as every reachable state does, deleting a present id succeeds, a subsequent
GET of that id answers 404 Task not found, and the id is absent from a
subsequent list response; both backends are covered, the durable one through
its spec-modelled operations. -/
theorem C9_delete_then_get (s : ServerState) (id : TaskId)
    (huniq : (activeTasks s).Pairwise (fun a b => a._id ≠ b._id))
    (hmem : ∃ t ∈ activeTasks s, t._id = id) :
    ∃ (s2 : ServerState) (out : List Task),
      deleteTaskById id s = (.okMsg "Task deleted successfully", s2) ∧
      (getTaskById id s2).1 = .notFound "Task not found" ∧
      (getTasks s2).1 = .okList (out.map renderTask) ∧
      ∀ t ∈ out, t._id ≠ id := by
  by_cases hdb : s.dbConnected
  · have hact : activeTasks s = s.mongoTasks := by simp [activeTasks, hdb]
    rw [hact] at huniq hmem
    obtain ⟨pre, t, post, heq, hid, hpre, hdel⟩ := deleteTaskById_mg s id hdb hmem
    have hpw := huniq
    rw [heq] at hpw
    have hpost : ∀ u ∈ post, t._id ≠ u._id :=
      (List.pairwise_cons.mp (List.pairwise_append.mp hpw).2.1).1
    have hrest : ∀ u ∈ pre ++ post, u._id ≠ id := by
      intro u hu
      rcases List.mem_append.mp hu with hu | hu
      · exact hpre u hu
      · exact fun hc => hpost u hu (by rw [hid, hc])
    have hfind : (pre ++ post).find? (fun u => u._id == id) = none := by
      refine List.find?_eq_none.mpr ?_
      intro x hx
      simpa using hrest x hx
    refine ⟨{ s with mongoTasks := pre ++ post }, sortTasks (pre ++ post),
      hdel, ?_, ?_, ?_⟩
    · simp [getTaskById, isDbConnected, hdb, mongoFindById, hfind]
    · simp [getTasks, isDbConnected, hdb, mongoFindSorted]
    · intro u hu
      exact hrest u ((sortTasks_perm (pre ++ post)).mem_iff.mp hu)
  · have hdbf : s.dbConnected = false := by simpa using hdb
    have hact : activeTasks s = s.inMemoryTasks := by simp [activeTasks, hdbf]
    rw [hact] at huniq hmem
    obtain ⟨pre, t, post, heq, hid, hpre, hdel⟩ := deleteTaskById_fb s id hdbf hmem
    have hpw := huniq
    rw [heq] at hpw
    have hpost : ∀ u ∈ post, t._id ≠ u._id :=
      (List.pairwise_cons.mp (List.pairwise_append.mp hpw).2.1).1
    have hrest : ∀ u ∈ pre ++ post, u._id ≠ id := by
      intro u hu
      rcases List.mem_append.mp hu with hu | hu
      · exact hpre u hu
      · exact fun hc => hpost u hu (by rw [hid, hc])
    have hfind : (pre ++ post).find? (fun u => u._id == id) = none := by
      refine List.find?_eq_none.mpr ?_
      intro x hx
      simpa using hrest x hx
    refine ⟨{ s with inMemoryTasks := pre ++ post }, sortTasks (pre ++ post),
      hdel, ?_, ?_, ?_⟩
    · simp [getTaskById, isDbConnected, hdbf, hfind]
    · simp [getTasks, isDbConnected, hdbf]
    · intro u hu
      exact hrest u ((sortTasks_perm (pre ++ post)).mem_iff.mp hu)

/-- Claim C9 witness: deleting id (0, 2) from the three-task state, then
getting and listing. -/
theorem C9_delete_then_get_witness :
    (activeTasks c1State).Pairwise (fun a b => a._id ≠ b._id) ∧
    (∃ t ∈ activeTasks c1State, t._id = (0, 2)) ∧
    ∃ (s2 : ServerState) (out : List Task),
      deleteTaskById (0, 2) c1State = (.okMsg "Task deleted successfully", s2) ∧
      (getTaskById (0, 2) s2).1 = .notFound "Task not found" ∧
      (getTasks s2).1 = .okList (out.map renderTask) ∧
      ∀ t ∈ out, t._id ≠ (0, 2) :=
  ⟨by decide, by decide, C9_delete_then_get c1State (0, 2) (by decide) (by decide)⟩

theorem findIdx_get_set {α : Type} (p : α → Bool) (l : List α)
    (h : l.findIdx p < l.length) (f : α → α) :
    ∃ pre x post, l = pre ++ x :: post ∧ p x = true ∧ (∀ y ∈ pre, p y = false) ∧
      l.get ⟨l.findIdx p, h⟩ = x ∧
      l.set (l.findIdx p) (f x) = pre ++ f x :: post := by
  induction l with
  | nil => simp at h
  | cons a l ih =>
    by_cases ha : p a = true
    · refine ⟨[], a, l, rfl, ha, by simp, ?_, ?_⟩ <;>
        simp [List.findIdx_cons, ha]
    · have ha2 : p a = false := by simpa using ha
      have h2 : l.findIdx p < l.length := by
        simp only [List.findIdx_cons, ha2, cond_false, List.length_cons] at h
        omega
      obtain ⟨pre, x, post, heq, hx, hpre, hget, hset⟩ := ih h2
      refine ⟨a :: pre, x, post, by simp [heq], hx, ?_, ?_, ?_⟩
      · intro y hy
        rcases List.mem_cons.mp hy with rfl | hy
        · exact ha2
        · exact hpre y hy
      · simp only [List.findIdx_cons, ha2, cond_false]
        simpa using hget
      · simp only [List.findIdx_cons, ha2, cond_false]
        simp [hset]

theorem getTasks_state (s : ServerState) : (getTasks s).2 = s := by
  by_cases hdb : s.dbConnected <;> simp [getTasks, isDbConnected, hdb]

theorem getTaskById_state (id : TaskId) (s : ServerState) :
    (getTaskById id s).2 = s := by
  by_cases hdb : s.dbConnected
  · cases hf : mongoFindById id s.mongoTasks <;>
      simp [getTaskById, isDbConnected, hdb, hf]
  · cases hf : s.inMemoryTasks.find? (fun t => t._id == id) <;>
      simp [getTaskById, isDbConnected, hdb, hf]

theorem postTasks_cases (now : Timestamp) (body : CreateBody) (s : ServerState) :
    (postTasks now body s).2 = s ∨
    (s.dbConnected = true ∧ (postTasks now body s).2 =
      { s with mongoTasks := s.mongoTasks ++ [mongoNewTask now body s],
               mongoCtr := s.mongoCtr + 1 }) ∨
    (s.dbConnected = false ∧ (postTasks now body s).2 =
      { s with inMemoryTasks := s.inMemoryTasks ++ [fbNewTask now body s],
               inMemoryIdCounter := s.inMemoryIdCounter + 1 }) := by
  by_cases htext : textRequiredFails body.text = true
  · exact Or.inl (by simp [postTasks, htext])
  · have htf : textRequiredFails body.text = false := by simpa using htext
    by_cases hdb : s.dbConnected
    · exact Or.inr (Or.inl ⟨hdb, by simp [postTasks, htf, isDbConnected, hdb]⟩)
    · have hdbf : s.dbConnected = false := by simpa using hdb
      exact Or.inr (Or.inr ⟨hdbf, by simp [postTasks, htf, isDbConnected, hdbf]⟩)

theorem putTaskById_cases (now : Timestamp) (id : TaskId) (b : UpdateBody)
    (s : ServerState) :
    (putTaskById now id b s).2 = s ∨
    (∃ pre t post, s.dbConnected = true ∧ s.mongoTasks = pre ++ t :: post ∧
      (putTaskById now id b s).2 =
        { s with mongoTasks := pre ++ mongoMerge now b t :: post }) ∨
    (∃ pre t post, s.dbConnected = false ∧ s.inMemoryTasks = pre ++ t :: post ∧
      (putTaskById now id b s).2 =
        { s with inMemoryTasks := pre ++ applyPayload now b t :: post }) := by
  by_cases hdb : s.dbConnected
  · by_cases hlt : s.mongoTasks.findIdx (fun u => u._id == id) < s.mongoTasks.length
    · by_cases hval : textEmptySupplied b = true
      · exact Or.inl (by
          simp [putTaskById, isDbConnected, hdb, mongoFindByIdAndUpdate, hlt, hval])
      · have hvf : textEmptySupplied b = false := by simpa using hval
        obtain ⟨pre, t, post, heq, _, _, hget, hset⟩ :=
          findIdx_get_set (fun u => u._id == id) s.mongoTasks hlt (mongoMerge now b)
        refine Or.inr (Or.inl ⟨pre, t, post, hdb, heq, ?_⟩)
        rw [List.get_eq_getElem] at hget
        simp [putTaskById, isDbConnected, hdb, mongoFindByIdAndUpdate, hlt, hvf,
          hget, hset]
    · exact Or.inl (by
        simp [putTaskById, isDbConnected, hdb, mongoFindByIdAndUpdate, hlt])
  · have hdbf : s.dbConnected = false := by simpa using hdb
    by_cases hlt : s.inMemoryTasks.findIdx (fun u => u._id == id) <
        s.inMemoryTasks.length
    · obtain ⟨pre, t, post, heq, _, _, hget, hset⟩ :=
        findIdx_get_set (fun u => u._id == id) s.inMemoryTasks hlt
          (applyPayload now b)
      refine Or.inr (Or.inr ⟨pre, t, post, hdbf, heq, ?_⟩)
      rw [List.get_eq_getElem] at hget
      simp [putTaskById, isDbConnected, hdbf, hlt, hget, hset]
    · exact Or.inl (by simp [putTaskById, isDbConnected, hdbf, hlt])

theorem deleteTaskById_cases (id : TaskId) (s : ServerState) :
    (deleteTaskById id s).2 = s ∨
    (∃ pre t post, s.dbConnected = true ∧ s.mongoTasks = pre ++ t :: post ∧
      (deleteTaskById id s).2 = { s with mongoTasks := pre ++ post }) ∨
    (∃ pre t post, s.dbConnected = false ∧ s.inMemoryTasks = pre ++ t :: post ∧
      (deleteTaskById id s).2 = { s with inMemoryTasks := pre ++ post }) := by
  by_cases hdb : s.dbConnected
  · by_cases hlt : s.mongoTasks.findIdx (fun u => u._id == id) < s.mongoTasks.length
    · obtain ⟨pre, t, post, heq, hid, hpre, hdel⟩ :=
        deleteTaskById_mg s id hdb ⟨s.mongoTasks.get
          ⟨s.mongoTasks.findIdx (fun u => u._id == id), hlt⟩, by
            constructor
            · exact List.get_mem _ _ _
            · have := @List.findIdx_getElem _ (fun u => u._id == id) s.mongoTasks hlt
              simpa [List.get_eq_getElem] using this⟩
      exact Or.inr (Or.inl ⟨pre, t, post, hdb, heq, by rw [hdel]⟩)
    · exact Or.inl (by
        simp [deleteTaskById, isDbConnected, hdb, mongoFindByIdAndDelete, hlt])
  · have hdbf : s.dbConnected = false := by simpa using hdb
    by_cases hlt : s.inMemoryTasks.findIdx (fun u => u._id == id) <
        s.inMemoryTasks.length
    · obtain ⟨pre, t, post, heq, hid, hpre, hdel⟩ :=
        deleteTaskById_fb s id hdbf ⟨s.inMemoryTasks.get
          ⟨s.inMemoryTasks.findIdx (fun u => u._id == id), hlt⟩, by
            constructor
            · exact List.get_mem _ _ _
            · have := @List.findIdx_getElem _ (fun u => u._id == id) s.inMemoryTasks hlt
              simpa [List.get_eq_getElem] using this⟩
      exact Or.inr (Or.inr ⟨pre, t, post, hdbf, heq, by rw [hdel]⟩)
    · exact Or.inl (by simp [deleteTaskById, isDbConnected, hdbf, hlt])

theorem mongoMerge_id (now : Timestamp) (b : UpdateBody) (t : Task) :
    (mongoMerge now b t)._id = t._id := rfl

theorem applyPayload_id (now : Timestamp) (b : UpdateBody) (t : Task)
    (hb : b._id = none) : (applyPayload now b t)._id = t._id := by
  simp [applyPayload, hb]

theorem invIds_initial : InvIds initialState := by
  constructor <;> simp [initialState, allTasks, idsOf]

theorem idsOf_append (l1 l2 : List Task) :
    idsOf (l1 ++ l2) = idsOf l1 ++ idsOf l2 := by
  simp [idsOf]

theorem pairwise_ids_snoc {ids : List TaskId} (h : ids.Pairwise (· ≠ ·))
    (n : TaskId) (hn : ∀ a ∈ ids, a ≠ n) : (ids ++ [n]).Pairwise (· ≠ ·) := by
  rw [List.pairwise_append]
  refine ⟨h, by simp, ?_⟩
  intro a ha b hb
  rw [List.mem_singleton.mp hb]
  exact hn a ha

theorem pairwise_mid_snoc (A B : List TaskId) (n : TaskId)
    (h : (A ++ B).Pairwise (· ≠ ·)) (hn : ∀ a ∈ A ++ B, a ≠ n) :
    ((A ++ [n]) ++ B).Pairwise (· ≠ ·) := by
  have hperm : ((A ++ [n]) ++ B).Perm ((A ++ B) ++ [n]) := by
    have h1 : (A ++ [n]) ++ B = A ++ ([n] ++ B) := by simp
    have h2 : (A ++ B) ++ [n] = A ++ (B ++ [n]) := by simp
    rw [h1, h2]
    exact List.Perm.append_left A List.perm_append_comm
  exact (List.Perm.pairwise_iff (fun hx => Ne.symm hx) hperm).mpr
    (pairwise_ids_snoc h n hn)

theorem fresh_mongo_id (s : ServerState) (hInv : InvIds s) :
    ∀ a ∈ idsOf (allTasks s), a ≠ (s.mongoCtr, 0) := by
  intro a ha hc
  rw [allTasks, idsOf_append] at ha
  rcases List.mem_append.mp ha with ha | ha
  · have hz := hInv.mgZero a ha
    rw [hc] at hz
    simp at hz
  · have hz := hInv.fbLo a ha
    rw [hc] at hz
    simp at hz

theorem fresh_fb_id (s : ServerState) (hInv : InvIds s) (now : Timestamp) :
    ∀ a ∈ idsOf (allTasks s), a ≠ (now, s.inMemoryIdCounter) := by
  intro a ha hc
  have h1 := hInv.fbOne
  rw [allTasks, idsOf_append] at ha
  rcases List.mem_append.mp ha with ha | ha
  · have hz := hInv.mgZero a ha
    rw [hc] at hz
    simp at hz
    omega
  · have hz := hInv.fbLo a ha
    rw [hc] at hz
    simp at hz

theorem invIds_of_eq (s s2 : ServerState)
    (h1 : idsOf s2.inMemoryTasks = idsOf s.inMemoryTasks)
    (h2 : idsOf s2.mongoTasks = idsOf s.mongoTasks)
    (h3 : s2.inMemoryIdCounter = s.inMemoryIdCounter)
    (h4 : s2.mongoCtr = s.mongoCtr)
    (hInv : InvIds s) : InvIds s2 := by
  refine ⟨?_, ?_, ?_, ?_⟩
  · rw [h1, h3]
    exact hInv.fbLo
  · rw [h3]
    exact hInv.fbOne
  · rw [h2, h4]
    exact hInv.mgZero
  · have hall : idsOf (allTasks s2) = idsOf (allTasks s) := by
      rw [allTasks, allTasks, idsOf_append, idsOf_append, h1, h2]
    rw [hall]
    exact hInv.uniq

theorem invIds_applyOp (s : ServerState) (op : Op) (hB : benignOp op = true)
    (hInv : InvIds s) : InvIds (applyOp s op) := by
  cases op with
  | opGetAll => simpa [applyOp, getTasks_state] using hInv
  | opGetOne id => simpa [applyOp, getTaskById_state] using hInv
  | opSetConnected bc => exact ⟨hInv.fbLo, hInv.fbOne, hInv.mgZero, hInv.uniq⟩
  | opPost now body =>
    rcases postTasks_cases now body s with hcase | ⟨hdb, hcase⟩ | ⟨hdb, hcase⟩
    · have hstate : applyOp s (.opPost now body) = s := hcase
      rw [hstate]
      exact hInv
    · have hstate : applyOp s (.opPost now body) =
        { s with mongoTasks := s.mongoTasks ++ [mongoNewTask now body s],
                 mongoCtr := s.mongoCtr + 1 } := hcase
      rw [hstate]
      refine ⟨hInv.fbLo, hInv.fbOne, ?_, ?_⟩
      · intro i hi
        rw [idsOf_append] at hi
        rcases List.mem_append.mp hi with hi | hi
        · have hz := hInv.mgZero i hi
          exact ⟨hz.1, Nat.lt_succ_of_lt hz.2⟩
        · have hz : i = (s.mongoCtr, 0) := by
            simpa [idsOf, mongoNewTask] using hi
          rw [hz]
          exact ⟨rfl, Nat.lt_succ_self s.mongoCtr⟩
      · have hshape : idsOf (allTasks { s with
            mongoTasks := s.mongoTasks ++ [mongoNewTask now body s],
            mongoCtr := s.mongoCtr + 1 }) =
            (idsOf s.mongoTasks ++ [(s.mongoCtr, 0)]) ++ idsOf s.inMemoryTasks := by
          rw [show allTasks { s with
              mongoTasks := s.mongoTasks ++ [mongoNewTask now body s],
              mongoCtr := s.mongoCtr + 1 } =
            (s.mongoTasks ++ [mongoNewTask now body s]) ++ s.inMemoryTasks from rfl]
          rw [idsOf_append, idsOf_append]
          rfl
        rw [hshape]
        refine pairwise_mid_snoc _ _ _ ?_ ?_
        · have hu := hInv.uniq
          rwa [allTasks, idsOf_append] at hu
        · intro a ha
          refine fresh_mongo_id s hInv a ?_
          rw [allTasks, idsOf_append]
          exact ha
    · have hstate : applyOp s (.opPost now body) =
        { s with inMemoryTasks := s.inMemoryTasks ++ [fbNewTask now body s],
                 inMemoryIdCounter := s.inMemoryIdCounter + 1 } := hcase
      rw [hstate]
      refine ⟨?_, Nat.le_succ_of_le hInv.fbOne, hInv.mgZero, ?_⟩
      · intro i hi
        rw [idsOf_append] at hi
        rcases List.mem_append.mp hi with hi | hi
        · have hz := hInv.fbLo i hi
          exact ⟨hz.1, Nat.lt_succ_of_lt hz.2⟩
        · have hz : i = (now, s.inMemoryIdCounter) := by
            simpa [idsOf, fbNewTask] using hi
          rw [hz]
          exact ⟨hInv.fbOne, Nat.lt_succ_self s.inMemoryIdCounter⟩
      · have hshape : idsOf (allTasks { s with
            inMemoryTasks := s.inMemoryTasks ++ [fbNewTask now body s],
            inMemoryIdCounter := s.inMemoryIdCounter + 1 }) =
            idsOf s.mongoTasks ++ (idsOf s.inMemoryTasks ++
              [(now, s.inMemoryIdCounter)]) := by
          rw [show allTasks { s with
              inMemoryTasks := s.inMemoryTasks ++ [fbNewTask now body s],
              inMemoryIdCounter := s.inMemoryIdCounter + 1 } =
            s.mongoTasks ++ (s.inMemoryTasks ++ [fbNewTask now body s]) from rfl]
          rw [idsOf_append, idsOf_append]
          rfl
        rw [hshape, ← List.append_assoc]
        refine pairwise_ids_snoc ?_ _ ?_
        · have hu := hInv.uniq
          rwa [allTasks, idsOf_append] at hu
        · intro a ha
          refine fresh_fb_id s hInv now a ?_
          rw [allTasks, idsOf_append]
          exact ha
  | opPut now id b =>
    have hb : b.createdAt = none ∧ b._id = none := by
      simpa [benignOp, mutableOnly] using hB
    rcases putTaskById_cases now id b s with hcase |
      ⟨pre, t, post, hdb, heq, hcase⟩ | ⟨pre, t, post, hdb, heq, hcase⟩
    · have hstate : applyOp s (.opPut now id b) = s := hcase
      rw [hstate]
      exact hInv
    · have hstate : applyOp s (.opPut now id b) =
        { s with mongoTasks := pre ++ mongoMerge now b t :: post } := hcase
      rw [hstate]
      refine invIds_of_eq s _ rfl ?_ rfl rfl hInv
      rw [heq]
      simp [idsOf, mongoMerge_id]
    · have hstate : applyOp s (.opPut now id b) =
        { s with inMemoryTasks := pre ++ applyPayload now b t :: post } := hcase
      rw [hstate]
      refine invIds_of_eq s _ ?_ rfl rfl rfl hInv
      rw [heq]
      simp [idsOf, applyPayload_id now b t hb.2]
  | opDelete id =>
    rcases deleteTaskById_cases id s with hcase |
      ⟨pre, t, post, hdb, heq, hcase⟩ | ⟨pre, t, post, hdb, heq, hcase⟩
    · have hstate : applyOp s (.opDelete id) = s := hcase
      rw [hstate]
      exact hInv
    · have hstate : applyOp s (.opDelete id) =
        { s with mongoTasks := pre ++ post } := hcase
      rw [hstate]
      have hsub : (pre ++ post).Sublist s.mongoTasks := by
        rw [heq]
        exact List.Sublist.append_left (List.sublist_cons_self t post) pre
      refine ⟨hInv.fbLo, hInv.fbOne, ?_, ?_⟩
      · intro i hi
        exact hInv.mgZero i ((hsub.map (fun u => u._id)).subset hi)
      · have hsub2 : ((pre ++ post) ++ s.inMemoryTasks).Sublist (allTasks s) :=
          hsub.append_right s.inMemoryTasks
        have hgoal : idsOf (allTasks { s with mongoTasks := pre ++ post }) =
            List.map (fun u => u._id) ((pre ++ post) ++ s.inMemoryTasks) := rfl
        rw [hgoal]
        exact List.Pairwise.sublist (hsub2.map (fun u => u._id)) hInv.uniq
    · have hstate : applyOp s (.opDelete id) =
        { s with inMemoryTasks := pre ++ post } := hcase
      rw [hstate]
      have hsub : (pre ++ post).Sublist s.inMemoryTasks := by
        rw [heq]
        exact List.Sublist.append_left (List.sublist_cons_self t post) pre
      refine ⟨?_, hInv.fbOne, hInv.mgZero, ?_⟩
      · intro i hi
        exact hInv.fbLo i ((hsub.map (fun u => u._id)).subset hi)
      · have hsub2 : (s.mongoTasks ++ (pre ++ post)).Sublist (allTasks s) :=
          List.Sublist.append_left hsub s.mongoTasks
        have hgoal : idsOf (allTasks { s with inMemoryTasks := pre ++ post }) =
            List.map (fun u => u._id) (s.mongoTasks ++ (pre ++ post)) := rfl
        rw [hgoal]
        exact List.Pairwise.sublist (hsub2.map (fun u => u._id)) hInv.uniq

theorem invIds_runOps (s : ServerState) (ops : List Op)
    (hB : ∀ op ∈ ops, benignOp op = true) (hInv : InvIds s) :
    InvIds (runOps s ops) := by
  induction ops generalizing s with
  | nil => exact hInv
  | cons op ops ih =>
    have h1 : runOps s (op :: ops) = runOps (applyOp s op) ops := rfl
    rw [h1]
    exact ih (applyOp s op) (fun o ho => hB o (List.mem_cons_of_mem op ho))
      (invIds_applyOp s op (hB op (List.mem_cons_self op ops)) hInv)

theorem mongoMerge_createdAt (now : Timestamp) (b : UpdateBody) (t : Task)
    (hb : b.createdAt = none) :
    (mongoMerge now b t).createdAt = t.createdAt := by
  simp [mongoMerge, hb]

theorem applyPayload_createdAt (now : Timestamp) (b : UpdateBody) (t : Task)
    (hb : b.createdAt = none) :
    (applyPayload now b t).createdAt = t.createdAt := by
  simp [applyPayload, hb]

theorem stampOk_applyOp (s : ServerState) (op : Op) (n : Timestamp)
    (hB : benignOp op = true) (hS : StampOk s n)
    (hN : ∀ m, opNow op = some m → n ≤ m) :
    StampOk (applyOp s op) ((opNow op).getD n) := by
  cases op with
  | opGetAll =>
    rw [show applyOp s .opGetAll = s from getTasks_state s]
    exact hS
  | opGetOne id =>
    rw [show applyOp s (.opGetOne id) = s from getTaskById_state id s]
    exact hS
  | opSetConnected bc => exact hS
  | opPost now body =>
    have hn : n ≤ now := hN now rfl
    have hgetD : (opNow (Op.opPost now body)).getD n = now := rfl
    rw [hgetD]
    rcases postTasks_cases now body s with hcase | ⟨hdb, hcase⟩ | ⟨hdb, hcase⟩
    · rw [show applyOp s (.opPost now body) = s from hcase]
      exact fun t ht => ⟨(hS t ht).1, le_trans (hS t ht).2 hn⟩
    · rw [show applyOp s (.opPost now body) = _ from hcase]
      intro t ht
      simp only [allTasks] at ht
      rcases List.mem_append.mp ht with h1 | h1
      · rcases List.mem_append.mp h1 with h2 | h2
        · have hold := hS t (List.mem_append.mpr (Or.inl h2))
          exact ⟨hold.1, le_trans hold.2 hn⟩
        · rw [List.mem_singleton.mp h2]
          exact ⟨le_refl now, le_refl now⟩
      · have hold := hS t (List.mem_append.mpr (Or.inr h1))
        exact ⟨hold.1, le_trans hold.2 hn⟩
    · rw [show applyOp s (.opPost now body) = _ from hcase]
      intro t ht
      simp only [allTasks] at ht
      rcases List.mem_append.mp ht with h1 | h1
      · have hold := hS t (List.mem_append.mpr (Or.inl h1))
        exact ⟨hold.1, le_trans hold.2 hn⟩
      · rcases List.mem_append.mp h1 with h2 | h2
        · have hold := hS t (List.mem_append.mpr (Or.inr h2))
          exact ⟨hold.1, le_trans hold.2 hn⟩
        · rw [List.mem_singleton.mp h2]
          exact ⟨le_refl now, le_refl now⟩
  | opPut now id b =>
    have hn : n ≤ now := hN now rfl
    have hb : b.createdAt = none ∧ b._id = none := by
      simpa [benignOp, mutableOnly] using hB
    have hgetD : (opNow (Op.opPut now id b)).getD n = now := rfl
    rw [hgetD]
    rcases putTaskById_cases now id b s with hcase |
      ⟨pre, t0, post, hdb, heq, hcase⟩ | ⟨pre, t0, post, hdb, heq, hcase⟩
    · rw [show applyOp s (.opPut now id b) = s from hcase]
      exact fun t ht => ⟨(hS t ht).1, le_trans (hS t ht).2 hn⟩
    · rw [show applyOp s (.opPut now id b) = _ from hcase]
      have ht0 : t0 ∈ allTasks s := by
        simp only [allTasks]
        refine List.mem_append.mpr (Or.inl ?_)
        rw [heq]
        simp
      have ht0s := hS t0 ht0
      intro u hu
      simp only [allTasks] at hu
      rcases List.mem_append.mp hu with h1 | h1
      · rcases List.mem_append.mp h1 with h2 | h2
        · have hmem : u ∈ allTasks s := by
            simp only [allTasks]
            refine List.mem_append.mpr (Or.inl ?_)
            rw [heq]
            exact List.mem_append.mpr (Or.inl h2)
          exact ⟨(hS u hmem).1, le_trans (hS u hmem).2 hn⟩
        · rcases List.mem_cons.mp h2 with rfl | h3
          · have hupd : (mongoMerge now b t0).updatedAt = now := rfl
            rw [hupd, mongoMerge_createdAt now b t0 hb.1]
            exact ⟨le_trans ht0s.1 (le_trans ht0s.2 hn), le_refl now⟩
          · have hmem : u ∈ allTasks s := by
              simp only [allTasks]
              refine List.mem_append.mpr (Or.inl ?_)
              rw [heq]
              exact List.mem_append.mpr (Or.inr (List.mem_cons_of_mem t0 h3))
            exact ⟨(hS u hmem).1, le_trans (hS u hmem).2 hn⟩
      · have hmem : u ∈ allTasks s := List.mem_append.mpr (Or.inr h1)
        exact ⟨(hS u hmem).1, le_trans (hS u hmem).2 hn⟩
    · rw [show applyOp s (.opPut now id b) = _ from hcase]
      have ht0 : t0 ∈ allTasks s := by
        simp only [allTasks]
        refine List.mem_append.mpr (Or.inr ?_)
        rw [heq]
        simp
      have ht0s := hS t0 ht0
      intro u hu
      simp only [allTasks] at hu
      rcases List.mem_append.mp hu with h1 | h1
      · have hmem : u ∈ allTasks s := List.mem_append.mpr (Or.inl h1)
        exact ⟨(hS u hmem).1, le_trans (hS u hmem).2 hn⟩
      · rcases List.mem_append.mp h1 with h2 | h2
        · have hmem : u ∈ allTasks s := by
            simp only [allTasks]
            refine List.mem_append.mpr (Or.inr ?_)
            rw [heq]
            exact List.mem_append.mpr (Or.inl h2)
          exact ⟨(hS u hmem).1, le_trans (hS u hmem).2 hn⟩
        · rcases List.mem_cons.mp h2 with rfl | h3
          · have hupd : (applyPayload now b t0).updatedAt = now := rfl
            rw [hupd, applyPayload_createdAt now b t0 hb.1]
            exact ⟨le_trans ht0s.1 (le_trans ht0s.2 hn), le_refl now⟩
          · have hmem : u ∈ allTasks s := by
              simp only [allTasks]
              refine List.mem_append.mpr (Or.inr ?_)
              rw [heq]
              exact List.mem_append.mpr (Or.inr (List.mem_cons_of_mem t0 h3))
            exact ⟨(hS u hmem).1, le_trans (hS u hmem).2 hn⟩
  | opDelete id =>
    have hgetD : (opNow (Op.opDelete id)).getD n = n := rfl
    rw [hgetD]
    rcases deleteTaskById_cases id s with hcase |
      ⟨pre, t0, post, hdb, heq, hcase⟩ | ⟨pre, t0, post, hdb, heq, hcase⟩
    · rw [show applyOp s (.opDelete id) = s from hcase]
      exact hS
    · rw [show applyOp s (.opDelete id) = _ from hcase]
      intro u hu
      simp only [allTasks] at hu
      rcases List.mem_append.mp hu with h1 | h1
      · refine hS u ?_
        simp only [allTasks]
        refine List.mem_append.mpr (Or.inl ?_)
        rw [heq]
        rcases List.mem_append.mp h1 with h2 | h2
        · exact List.mem_append.mpr (Or.inl h2)
        · exact List.mem_append.mpr (Or.inr (List.mem_cons_of_mem t0 h2))
      · exact hS u (List.mem_append.mpr (Or.inr h1))
    · rw [show applyOp s (.opDelete id) = _ from hcase]
      intro u hu
      simp only [allTasks] at hu
      rcases List.mem_append.mp hu with h1 | h1
      · exact hS u (List.mem_append.mpr (Or.inl h1))
      · refine hS u ?_
        simp only [allTasks]
        refine List.mem_append.mpr (Or.inr ?_)
        rw [heq]
        rcases List.mem_append.mp h1 with h2 | h2
        · exact List.mem_append.mpr (Or.inl h2)
        · exact List.mem_append.mpr (Or.inr (List.mem_cons_of_mem t0 h2))

theorem stampOk_runOps (s : ServerState) (ops : List Op) (n : Timestamp)
    (hB : ∀ op ∈ ops, benignOp op = true) (hN : nowsLB n ops = true)
    (hS : StampOk s n) : StampOk (runOps s ops) (lastNow n ops) := by
  induction ops generalizing s n with
  | nil => exact hS
  | cons op ops ih =>
    have hgoal : runOps s (op :: ops) = runOps (applyOp s op) ops := rfl
    have hlast : lastNow n (op :: ops) = lastNow ((opNow op).getD n) ops := rfl
    rw [hgoal, hlast]
    have hB1 : benignOp op = true := hB op (List.mem_cons_self op ops)
    have hB2 : ∀ o ∈ ops, benignOp o = true :=
      fun o ho => hB o (List.mem_cons_of_mem op ho)
    cases hop : opNow op with
    | none =>
      have hN2 : nowsLB n ops = true := by
        simpa [nowsLB, hop] using hN
      have hstep := stampOk_applyOp s op n hB1 hS
        (fun m hm => by rw [hop] at hm; cases hm)
      rw [hop] at hstep
      simp only [Option.getD_none] at hstep
      have hres := ih (applyOp s op) n hB2 hN2 hstep
      simpa [Option.getD_none] using hres
    | some m =>
      have hpair : n ≤ m ∧ nowsLB m ops = true := by
        have h0 := hN
        simp [nowsLB, hop] at h0
        exact h0
      have hnm : n ≤ m := hpair.1
      have hN2 : nowsLB m ops = true := hpair.2
      have hstep := stampOk_applyOp s op n hB1 hS
        (fun k hk => by
          rw [hop] at hk
          injection hk with h
          rw [← h]
          exact hnm)
      rw [hop] at hstep
      simp only [Option.getD_some] at hstep
      have hres := ih (applyOp s op) m hB2 hN2 hstep
      simpa [Option.getD_some] using hres

theorem pairwise_ids_eq {l : List Task}
    (h : (idsOf l).Pairwise (· ≠ ·)) {a b : Task}
    (ha : a ∈ l) (hb : b ∈ l) (hid : a._id = b._id) : a = b := by
  induction l with
  | nil => cases ha
  | cons x l ih =>
    rw [show idsOf (x :: l) = x._id :: idsOf l from rfl, List.pairwise_cons] at h
    rcases List.mem_cons.mp ha with rfl | ha2 <;>
      rcases List.mem_cons.mp hb with rfl | hb2
    · rfl
    · exact absurd hid (h.1 b._id (List.mem_map_of_mem _ hb2))
    · exact absurd hid.symm (h.1 a._id (List.mem_map_of_mem _ ha2))
    · exact ih h.2 ha2 hb2

theorem idStale_of_mem (s : ServerState) (hInv : InvIds s) {t : Task}
    (ht : t ∈ allTasks s) : IdStale s t._id := by
  rcases List.mem_append.mp ht with h | h
  · have hz := hInv.mgZero t._id (List.mem_map_of_mem _ h)
    exact ⟨fun h1 => by omega, fun _ => hz.2⟩
  · have hz := hInv.fbLo t._id (List.mem_map_of_mem _ h)
    exact ⟨fun _ => hz.2, fun h0 => by omega⟩

theorem idCreatedAt_of_mem (s : ServerState) (hInv : InvIds s) {t : Task}
    (ht : t ∈ allTasks s) : IdCreatedAt s t._id t.createdAt := by
  intro u hu hid
  exact congrArg Task.createdAt (pairwise_ids_eq hInv.uniq hu ht hid)

theorem idTrack_applyOp (s : ServerState) (op : Op) (i : TaskId) (c : Timestamp)
    (hB : benignOp op = true) (hInv : InvIds s)
    (hStale : IdStale s i) (hIC : IdCreatedAt s i c) :
    IdStale (applyOp s op) i ∧ IdCreatedAt (applyOp s op) i c := by
  cases op with
  | opGetAll =>
    rw [show applyOp s .opGetAll = s from getTasks_state s]
    exact ⟨hStale, hIC⟩
  | opGetOne id =>
    rw [show applyOp s (.opGetOne id) = s from getTaskById_state id s]
    exact ⟨hStale, hIC⟩
  | opSetConnected bc => exact ⟨⟨hStale.1, hStale.2⟩, hIC⟩
  | opPost now body =>
    rcases postTasks_cases now body s with hcase | ⟨hdb, hcase⟩ | ⟨hdb, hcase⟩
    · rw [show applyOp s (.opPost now body) = s from hcase]
      exact ⟨hStale, hIC⟩
    · rw [show applyOp s (.opPost now body) = _ from hcase]
      refine ⟨⟨hStale.1, fun h0 => Nat.lt_succ_of_lt (hStale.2 h0)⟩, ?_⟩
      intro u hu hid
      simp only [allTasks] at hu
      rcases List.mem_append.mp hu with h1 | h1
      · rcases List.mem_append.mp h1 with h2 | h2
        · exact hIC u (List.mem_append.mpr (Or.inl h2)) hid
        · rw [List.mem_singleton.mp h2] at hid
          have hi2 : i.2 = 0 := by
            rw [← hid]
            rfl
          have hi1 : i.1 = s.mongoCtr := by
            rw [← hid]
            rfl
          have := hStale.2 hi2
          omega
      · exact hIC u (List.mem_append.mpr (Or.inr h1)) hid
    · rw [show applyOp s (.opPost now body) = _ from hcase]
      refine ⟨⟨fun h1 => Nat.lt_succ_of_lt (hStale.1 h1), hStale.2⟩, ?_⟩
      intro u hu hid
      simp only [allTasks] at hu
      rcases List.mem_append.mp hu with h1 | h1
      · exact hIC u (List.mem_append.mpr (Or.inl h1)) hid
      · rcases List.mem_append.mp h1 with h2 | h2
        · exact hIC u (List.mem_append.mpr (Or.inr h2)) hid
        · rw [List.mem_singleton.mp h2] at hid
          have hi2 : i.2 = s.inMemoryIdCounter := by
            rw [← hid]
            rfl
          have h1le : 1 ≤ i.2 := by
            rw [hi2]
            exact hInv.fbOne
          have := hStale.1 h1le
          omega
  | opPut now id b =>
    have hb : b.createdAt = none ∧ b._id = none := by
      simpa [benignOp, mutableOnly] using hB
    rcases putTaskById_cases now id b s with hcase |
      ⟨pre, t0, post, hdb, heq, hcase⟩ | ⟨pre, t0, post, hdb, heq, hcase⟩
    · rw [show applyOp s (.opPut now id b) = s from hcase]
      exact ⟨hStale, hIC⟩
    · rw [show applyOp s (.opPut now id b) = _ from hcase]
      refine ⟨⟨hStale.1, hStale.2⟩, ?_⟩
      intro u hu hid
      simp only [allTasks] at hu
      rcases List.mem_append.mp hu with h1 | h1
      · rcases List.mem_append.mp h1 with h2 | h2
        · refine hIC u ?_ hid
          refine List.mem_append.mpr (Or.inl ?_)
          rw [heq]
          exact List.mem_append.mpr (Or.inl h2)
        · rcases List.mem_cons.mp h2 with rfl | h3
          · have ht0mem : t0 ∈ allTasks s := by
              refine List.mem_append.mpr (Or.inl ?_)
              rw [heq]
              simp
            have hid0 : t0._id = i := by
              rw [← hid, mongoMerge_id]
            rw [mongoMerge_createdAt now b t0 hb.1]
            exact hIC t0 ht0mem hid0
          · refine hIC u ?_ hid
            refine List.mem_append.mpr (Or.inl ?_)
            rw [heq]
            exact List.mem_append.mpr (Or.inr (List.mem_cons_of_mem t0 h3))
      · exact hIC u (List.mem_append.mpr (Or.inr h1)) hid
    · rw [show applyOp s (.opPut now id b) = _ from hcase]
      refine ⟨⟨hStale.1, hStale.2⟩, ?_⟩
      intro u hu hid
      simp only [allTasks] at hu
      rcases List.mem_append.mp hu with h1 | h1
      · exact hIC u (List.mem_append.mpr (Or.inl h1)) hid
      · rcases List.mem_append.mp h1 with h2 | h2
        · refine hIC u ?_ hid
          refine List.mem_append.mpr (Or.inr ?_)
          rw [heq]
          exact List.mem_append.mpr (Or.inl h2)
        · rcases List.mem_cons.mp h2 with rfl | h3
          · have ht0mem : t0 ∈ allTasks s := by
              refine List.mem_append.mpr (Or.inr ?_)
              rw [heq]
              simp
            have hid0 : t0._id = i := by
              rw [← hid, applyPayload_id now b t0 hb.2]
            rw [applyPayload_createdAt now b t0 hb.1]
            exact hIC t0 ht0mem hid0
          · refine hIC u ?_ hid
            refine List.mem_append.mpr (Or.inr ?_)
            rw [heq]
            exact List.mem_append.mpr (Or.inr (List.mem_cons_of_mem t0 h3))
  | opDelete id =>
    rcases deleteTaskById_cases id s with hcase |
      ⟨pre, t0, post, hdb, heq, hcase⟩ | ⟨pre, t0, post, hdb, heq, hcase⟩
    · rw [show applyOp s (.opDelete id) = s from hcase]
      exact ⟨hStale, hIC⟩
    · rw [show applyOp s (.opDelete id) = _ from hcase]
      refine ⟨⟨hStale.1, hStale.2⟩, ?_⟩
      intro u hu hid
      simp only [allTasks] at hu
      rcases List.mem_append.mp hu with h1 | h1
      · refine hIC u ?_ hid
        refine List.mem_append.mpr (Or.inl ?_)
        rw [heq]
        rcases List.mem_append.mp h1 with h2 | h2
        · exact List.mem_append.mpr (Or.inl h2)
        · exact List.mem_append.mpr (Or.inr (List.mem_cons_of_mem t0 h2))
      · exact hIC u (List.mem_append.mpr (Or.inr h1)) hid
    · rw [show applyOp s (.opDelete id) = _ from hcase]
      refine ⟨⟨hStale.1, hStale.2⟩, ?_⟩
      intro u hu hid
      simp only [allTasks] at hu
      rcases List.mem_append.mp hu with h1 | h1
      · exact hIC u (List.mem_append.mpr (Or.inl h1)) hid
      · refine hIC u ?_ hid
        refine List.mem_append.mpr (Or.inr ?_)
        rw [heq]
        rcases List.mem_append.mp h1 with h2 | h2
        · exact List.mem_append.mpr (Or.inl h2)
        · exact List.mem_append.mpr (Or.inr (List.mem_cons_of_mem t0 h2))

theorem idTrack_runOps (s : ServerState) (ops : List Op) (i : TaskId)
    (c : Timestamp) (hB : ∀ op ∈ ops, benignOp op = true) (hInv : InvIds s)
    (hStale : IdStale s i) (hIC : IdCreatedAt s i c) :
    IdCreatedAt (runOps s ops) i c := by
  induction ops generalizing s with
  | nil => exact hIC
  | cons op ops ih =>
    have hstep := idTrack_applyOp s op i c (hB op (List.mem_cons_self op ops))
      hInv hStale hIC
    exact ih (applyOp s op) (fun o ho => hB o (List.mem_cons_of_mem op ho))
      (invIds_applyOp s op (hB op (List.mem_cons_self op ops)) hInv)
      hstep.1 hstep.2

/-- Claim C6: from process start, run any sequence of operations whose update
bodies stay within the mutable fields of §4.1 and whose clock readings are
non-decreasing; then every stored task satisfies createdAt ≤ updatedAt, and a
task's creation time is never mutated: any task stored later under the same
id still carries the createdAt assigned at creation. -/
theorem C6_createdAt_invariant (ops1 ops2 : List Op)
    (hB : ∀ op ∈ ops1 ++ ops2, benignOp op = true)
    (hN : nowsLB 0 (ops1 ++ ops2) = true) :
    (∀ t ∈ allTasks (runOps initialState (ops1 ++ ops2)),
      t.createdAt ≤ t.updatedAt) ∧
    (∀ t ∈ allTasks (runOps initialState ops1),
      ∀ u ∈ allTasks (runOps initialState (ops1 ++ ops2)), u._id = t._id →
        u.createdAt = t.createdAt) := by
  constructor
  · have hs0 : StampOk initialState 0 := by
      intro t ht
      simp [initialState, allTasks] at ht
    have hres := stampOk_runOps initialState (ops1 ++ ops2) 0 hB hN hs0
    exact fun t ht => (hres t ht).1
  · intro t ht u hu hid
    have hsplit : runOps initialState (ops1 ++ ops2) =
        runOps (runOps initialState ops1) ops2 := by
      simp [runOps, List.foldl_append]
    have hB1 : ∀ op ∈ ops1, benignOp op = true :=
      fun o ho => hB o (List.mem_append_left _ ho)
    have hB2 : ∀ op ∈ ops2, benignOp op = true :=
      fun o ho => hB o (List.mem_append_right _ ho)
    have hInv1 : InvIds (runOps initialState ops1) :=
      invIds_runOps initialState ops1 hB1 invIds_initial
    have hfin := idTrack_runOps (runOps initialState ops1) ops2 t._id
      t.createdAt hB2 hInv1 (idStale_of_mem _ hInv1 ht)
      (idCreatedAt_of_mem _ hInv1 ht)
    rw [hsplit] at hu
    exact hfin u hu hid

/-- Claim C6 witness: create a task, then complete it and create another with
a later clock; creation times persist and createdAt ≤ updatedAt throughout. -/
theorem C6_createdAt_invariant_witness :
    (∀ op ∈ c6Ops1 ++ c6Ops2, benignOp op = true) ∧
    nowsLB 0 (c6Ops1 ++ c6Ops2) = true ∧
    ((∀ t ∈ allTasks (runOps initialState (c6Ops1 ++ c6Ops2)),
        t.createdAt ≤ t.updatedAt) ∧
      (∀ t ∈ allTasks (runOps initialState c6Ops1),
        ∀ u ∈ allTasks (runOps initialState (c6Ops1 ++ c6Ops2)),
          u._id = t._id → u.createdAt = t.createdAt)) :=
  ⟨by decide, by decide, C6_createdAt_invariant c6Ops1 c6Ops2 (by decide) (by decide)⟩

theorem ctr_mono_applyOp (s : ServerState) (op : Op) :
    s.inMemoryIdCounter ≤ (applyOp s op).inMemoryIdCounter ∧
    s.mongoCtr ≤ (applyOp s op).mongoCtr := by
  cases op with
  | opGetAll =>
    rw [show applyOp s .opGetAll = s from getTasks_state s]
    exact ⟨le_refl _, le_refl _⟩
  | opGetOne id =>
    rw [show applyOp s (.opGetOne id) = s from getTaskById_state id s]
    exact ⟨le_refl _, le_refl _⟩
  | opSetConnected bc => exact ⟨le_refl _, le_refl _⟩
  | opPost now body =>
    rcases postTasks_cases now body s with hcase | ⟨hdb, hcase⟩ | ⟨hdb, hcase⟩
    · rw [show applyOp s (.opPost now body) = s from hcase]
      exact ⟨le_refl _, le_refl _⟩
    · rw [show applyOp s (.opPost now body) = _ from hcase]
      exact ⟨le_refl _, Nat.le_succ _⟩
    · rw [show applyOp s (.opPost now body) = _ from hcase]
      exact ⟨Nat.le_succ _, le_refl _⟩
  | opPut now id b =>
    rcases putTaskById_cases now id b s with hcase |
      ⟨pre, t0, post, hdb, heq, hcase⟩ | ⟨pre, t0, post, hdb, heq, hcase⟩
    · rw [show applyOp s (.opPut now id b) = s from hcase]
      exact ⟨le_refl _, le_refl _⟩
    · rw [show applyOp s (.opPut now id b) = _ from hcase]
      exact ⟨le_refl _, le_refl _⟩
    · rw [show applyOp s (.opPut now id b) = _ from hcase]
      exact ⟨le_refl _, le_refl _⟩
  | opDelete id =>
    rcases deleteTaskById_cases id s with hcase |
      ⟨pre, t0, post, hdb, heq, hcase⟩ | ⟨pre, t0, post, hdb, heq, hcase⟩
    · rw [show applyOp s (.opDelete id) = s from hcase]
      exact ⟨le_refl _, le_refl _⟩
    · rw [show applyOp s (.opDelete id) = _ from hcase]
      exact ⟨le_refl _, le_refl _⟩
    · rw [show applyOp s (.opDelete id) = _ from hcase]
      exact ⟨le_refl _, le_refl _⟩

theorem idStale_mono (s : ServerState) (op : Op) (i : TaskId)
    (h : IdStale s i) : IdStale (applyOp s op) i := by
  obtain ⟨hm1, hm2⟩ := ctr_mono_applyOp s op
  exact ⟨fun h1 => lt_of_lt_of_le (h.1 h1) hm1,
    fun h0 => lt_of_lt_of_le (h.2 h0) hm2⟩

theorem createdIds_fresh (s : ServerState) (ops : List Op)
    (hc : 1 ≤ s.inMemoryIdCounter) :
    (∀ i, IdStale s i → i ∉ createdIds s ops) ∧
    (createdIds s ops).Pairwise (· ≠ ·) := by
  induction ops generalizing s with
  | nil => exact ⟨fun i _ => List.not_mem_nil i, List.Pairwise.nil⟩
  | cons op ops ih =>
    have hc2 : 1 ≤ (applyOp s op).inMemoryIdCounter :=
      le_trans hc (ctr_mono_applyOp s op).1
    have hrest := ih (applyOp s op) hc2
    cases op with
    | opGetAll =>
      have hhd : createdIds s (Op.opGetAll :: ops) =
          createdIds (applyOp s Op.opGetAll) ops := by
        simp [createdIds]
      rw [hhd]
      exact ⟨fun i hi => hrest.1 i (idStale_mono s _ i hi), hrest.2⟩
    | opGetOne id =>
      have hhd : createdIds s (Op.opGetOne id :: ops) =
          createdIds (applyOp s (Op.opGetOne id)) ops := by
        simp [createdIds]
      rw [hhd]
      exact ⟨fun i hi => hrest.1 i (idStale_mono s _ i hi), hrest.2⟩
    | opSetConnected bc =>
      have hhd : createdIds s (Op.opSetConnected bc :: ops) =
          createdIds (applyOp s (Op.opSetConnected bc)) ops := by
        simp [createdIds]
      rw [hhd]
      exact ⟨fun i hi => hrest.1 i (idStale_mono s _ i hi), hrest.2⟩
    | opPut now id b =>
      have hhd : createdIds s (Op.opPut now id b :: ops) =
          createdIds (applyOp s (Op.opPut now id b)) ops := by
        simp [createdIds]
      rw [hhd]
      exact ⟨fun i hi => hrest.1 i (idStale_mono s _ i hi), hrest.2⟩
    | opDelete id =>
      have hhd : createdIds s (Op.opDelete id :: ops) =
          createdIds (applyOp s (Op.opDelete id)) ops := by
        simp [createdIds]
      rw [hhd]
      exact ⟨fun i hi => hrest.1 i (idStale_mono s _ i hi), hrest.2⟩
    | opPost now body =>
      by_cases htext : textRequiredFails body.text = true
      · have hhd : createdIds s (Op.opPost now body :: ops) =
            createdIds (applyOp s (Op.opPost now body)) ops := by
          simp [createdIds, postTasks, htext]
        rw [hhd]
        exact ⟨fun i hi => hrest.1 i (idStale_mono s _ i hi), hrest.2⟩
      · have htf : textRequiredFails body.text = false := by simpa using htext
        by_cases hdb : s.dbConnected
        · have hresp : (postTasks now body s).1 =
              .created (renderTask (mongoNewTask now body s)) := by
            simp [postTasks, htf, isDbConnected, hdb]
          have hhd : createdIds s (Op.opPost now body :: ops) =
              (s.mongoCtr, 0) :: createdIds (applyOp s (Op.opPost now body)) ops := by
            simp [createdIds, hresp]
            rfl
          rw [hhd]
          have hstate : applyOp s (Op.opPost now body) =
              { s with mongoTasks := s.mongoTasks ++ [mongoNewTask now body s],
                       mongoCtr := s.mongoCtr + 1 } := by
            simp [applyOp, postTasks, htf, isDbConnected, hdb]
          have hstale2 : IdStale (applyOp s (Op.opPost now body)) (s.mongoCtr, 0) := by
            rw [hstate]
            exact ⟨fun h1 => absurd h1 (Nat.not_succ_le_zero 0),
              fun _ => Nat.lt_succ_self s.mongoCtr⟩
          refine ⟨?_, ?_⟩
          · intro i hi hmem
            rcases List.mem_cons.mp hmem with rfl | hmem2
            · exact absurd (hi.2 rfl) (lt_irrefl s.mongoCtr)
            · exact hrest.1 i (idStale_mono s _ i hi) hmem2
          · refine List.pairwise_cons.mpr ⟨?_, hrest.2⟩
            intro j hj hEq
            exact hrest.1 (s.mongoCtr, 0) hstale2 (hEq ▸ hj)
        · have hdbf : s.dbConnected = false := by simpa using hdb
          have hresp : (postTasks now body s).1 =
              .created (renderTask (fbNewTask now body s)) := by
            simp [postTasks, htf, isDbConnected, hdbf]
          have hhd : createdIds s (Op.opPost now body :: ops) =
              (now, s.inMemoryIdCounter) ::
                createdIds (applyOp s (Op.opPost now body)) ops := by
            simp [createdIds, hresp]
            rfl
          rw [hhd]
          have hstate : applyOp s (Op.opPost now body) =
              { s with inMemoryTasks := s.inMemoryTasks ++ [fbNewTask now body s],
                       inMemoryIdCounter := s.inMemoryIdCounter + 1 } := by
            simp [applyOp, postTasks, htf, isDbConnected, hdbf]
          have hstale2 : IdStale (applyOp s (Op.opPost now body))
              (now, s.inMemoryIdCounter) := by
            rw [hstate]
            refine ⟨fun _ => Nat.lt_succ_self s.inMemoryIdCounter, ?_⟩
            intro h0
            have h0n : s.inMemoryIdCounter = 0 := h0
            exact absurd (h0n ▸ hc) (by decide)
          refine ⟨?_, ?_⟩
          · intro i hi hmem
            rcases List.mem_cons.mp hmem with rfl | hmem2
            · exact absurd (hi.1 hc) (lt_irrefl s.inMemoryIdCounter)
            · exact hrest.1 i (idStale_mono s _ i hi) hmem2
          · refine List.pairwise_cons.mpr ⟨?_, hrest.2⟩
            intro j hj hEq
            exact hrest.1 (now, s.inMemoryIdCounter) hstale2 (hEq ▸ hj)

/-- Claim C8: every id a create assigns during a run from process start is
distinct from the id assigned by every other create in the same lifetime,
even when tasks are deleted in between, because both freshness counters only
grow and never repeat; and every successful create returns a record whose
createdAt equals its updatedAt. -/
theorem C8_unique_ids (ops : List Op) :
    (createdIds initialState ops).Pairwise (· ≠ ·) ∧
    ∀ (now : Timestamp) (body : CreateBody) (s : ServerState),
      textRequiredFails body.text = false →
      ∃ (tj : TaskJson) (s2 : ServerState),
        postTasks now body s = (.created tj, s2) ∧
        tj.createdAt = tj.updatedAt := by
  refine ⟨(createdIds_fresh initialState ops (by decide)).2, ?_⟩
  intro now body s htext
  by_cases hdb : s.dbConnected
  · refine ⟨renderTask (mongoNewTask now body s),
      { s with mongoTasks := s.mongoTasks ++ [mongoNewTask now body s],
               mongoCtr := s.mongoCtr + 1 }, ?_, rfl⟩
    simp [postTasks, htext, isDbConnected, hdb]
  · have hdbf : s.dbConnected = false := by simpa using hdb
    refine ⟨renderTask (fbNewTask now body s),
      { s with inMemoryTasks := s.inMemoryTasks ++ [fbNewTask now body s],
               inMemoryIdCounter := s.inMemoryIdCounter + 1 }, ?_, rfl⟩
    simp [postTasks, htext, isDbConnected, hdbf]

/-- Claim C8 witness: a create, a delete of that task, another fallback
create and a durable create assign pairwise-distinct ids even across the
deletion, and a further create returns createdAt = updatedAt. -/
theorem C8_unique_ids_witness :
    (createdIds initialState c8Ops).Pairwise (· ≠ ·) ∧
    (textRequiredFails (CreateBody.text { text := some "d" }) = false ∧
      ∃ (tj : TaskJson) (s2 : ServerState),
        postTasks 9 { text := some "d" } (runOps initialState c8Ops) =
          (.created tj, s2) ∧ tj.createdAt = tj.updatedAt) :=
  ⟨(C8_unique_ids c8Ops).1,
    by decide,
    (C8_unique_ids c8Ops).2 9 { text := some "d" }
      (runOps initialState c8Ops) (by decide)⟩

end TodoApp
